import Mathlib

set_option maxRecDepth 4000

/- Batteries marks the `Rat` field operations `@[irreducible]`; restore the
default reducibility in this file so that concrete runs of the executable
model reduce by `decide`/`rfl`. -/
attribute [local semireducible] Rat.add Rat.mul Rat.inv Rat.sub Rat.ofScientific

deriving instance DecidableEq for Except

/-!
Verification development for the expression-evaluation and answer-comparison
core of the repository (src/models/expression_evaluator.py,
src/models/answer_formatter.py, src/evaluation/answer_evaluator.py,
src/models/answer_processor.py).

Modelling conventions (shallow embedding):
* Python floats are idealized as exact rationals together with explicit
  `inf`, `-inf` and `nan` values (`PyVal`).  Overflow/precision artifacts of
  IEEE doubles are outside the model; finite arithmetic is exact.
* A finite value produced by a non-integer exponent (such as `2 ** 0.5`,
  irrational in general) is tracked by the opaque constructor `PyVal.ukn`
  ("a float value whose exact magnitude is not modelled"); operations on it
  return `ukn` again.
* `x ** y` for a finite negative `x` and a finite non-integer `y` yields a
  Python `complex` value; constructor `PyVal.cplx` records this outcome.
-/

inductive PyVal where
  | fin (q : ℚ)
  | inf
  | ninf
  | nan
  | ukn
  | cplx
  deriving DecidableEq, Repr

/-- Negation of a Python float (used to express `x - y` as `x + (-y)`,
which agrees with Python float subtraction on every operand class). -/
def pyNeg : PyVal → PyVal
  | .fin q => .fin (-q)
  | .inf => .ninf
  | .ninf => .inf
  | .nan => .nan
  | .ukn => .ukn
  | .cplx => .cplx

/-- Python float addition, `lambda x, y: x + y` from
`ExpressionEvaluator.operations`. -/
def pyAdd : PyVal → PyVal → PyVal
  | .nan, _ => .nan
  | _, .nan => .nan
  | .ukn, _ => .ukn
  | _, .ukn => .ukn
  | .cplx, _ => .ukn
  | _, .cplx => .ukn
  | .fin a, .fin b => .fin (a + b)
  | .inf, .ninf => .nan
  | .ninf, .inf => .nan
  | .inf, _ => .inf
  | _, .inf => .inf
  | .ninf, _ => .ninf
  | _, .ninf => .ninf

/-- Python float subtraction, `lambda x, y: x - y`. -/
def pySub (x y : PyVal) : PyVal := pyAdd x (pyNeg y)

/-- Python float multiplication, `lambda x, y: x * y`
(`0 * inf` is NaN, signs of infinities follow IEEE). -/
def pyMul : PyVal → PyVal → PyVal
  | .nan, _ => .nan
  | _, .nan => .nan
  | .ukn, _ => .ukn
  | _, .ukn => .ukn
  | .cplx, _ => .ukn
  | _, .cplx => .ukn
  | .fin a, .fin b => .fin (a * b)
  | .inf, .inf => .inf
  | .inf, .ninf => .ninf
  | .ninf, .inf => .ninf
  | .ninf, .ninf => .inf
  | .inf, .fin b => if 0 < b then .inf else if b < 0 then .ninf else .nan
  | .fin a, .inf => if 0 < a then .inf else if a < 0 then .ninf else .nan
  | .ninf, .fin b => if 0 < b then .ninf else if b < 0 then .inf else .nan
  | .fin a, .ninf => if 0 < a then .ninf else if a < 0 then .inf else .nan

/-- Python float division for a nonzero divisor (the `y != 0` branch of the
`divide` lambda; the `y == 0` case is handled in `applyOp`).  A signed zero
produced by `x / ±inf` is idealized to `0`. -/
def pyDivNZ : PyVal → PyVal → PyVal
  | .nan, _ => .nan
  | _, .nan => .nan
  | .ukn, _ => .ukn
  | _, .ukn => .ukn
  | .cplx, _ => .ukn
  | _, .cplx => .ukn
  | .fin a, .fin b => .fin (a / b)
  | .fin _, .inf => .fin 0
  | .fin _, .ninf => .fin 0
  | .inf, .inf => .nan
  | .inf, .ninf => .nan
  | .ninf, .inf => .nan
  | .ninf, .ninf => .nan
  | .inf, .fin b => if 0 ≤ b then .inf else .ninf
  | .ninf, .fin b => if 0 ≤ b then .ninf else .inf

/-- Python float comparison `x > y` (false whenever NaN is involved). -/
def pyGt : PyVal → PyVal → Bool
  | .fin a, .fin b => decide (b < a)
  | .fin _, .ninf => true
  | .inf, .ninf => true
  | .inf, .fin _ => true
  | _, _ => false

/-- `lambda x, y: 1 if x > y else 0` (the Python ints 1/0 re-enter the
rewriting as the floats 1.0/0.0). -/
def pyGreaterOp (x y : PyVal) : PyVal :=
  if x = .ukn ∨ y = .ukn ∨ x = .cplx ∨ y = .cplx then .ukn
  else if pyGt x y then .fin 1 else .fin 0

/-- Is the float an odd integer (used by CPython float_pow for sign
propagation on infinite/zero bases)? -/
def intOdd (q : ℚ) : Bool := q.den = 1 && decide (q.num % 2 ≠ 0)

/-- `|x| ** ±inf` following CPython float_pow: `|x| = 1` gives 1; the result
is `inf` when (exponent positive) coincides with (`|x| > 1`), else 0. -/
def powMagInf : PyVal → Bool → PyVal
  | .fin a, pos => if |a| = 1 then .fin 1
      else if decide (1 < |a|) = pos then .inf else .fin 0
  | .inf, pos => if pos then .inf else .fin 0
  | .ninf, pos => if pos then .inf else .fin 0
  | _, _ => .ukn

/-- Python `x ** y` (the `exp` lambda), following CPython float_pow:
`x ** 0 = 1` always; NaN propagates except `1 ** nan = 1`; infinite
exponents via `powMagInf`; `0 ** negative-finite` raises ZeroDivisionError
(modelled as `none`); a finite negative base with a finite non-integer
exponent falls back to complex pow (`cplx`); a finite positive base with a
non-integer exponent is a finite value not tracked exactly (`ukn`). -/
def pyExpOp (x y : PyVal) : Option PyVal :=
  if y = .fin 0 then some (.fin 1)
  else if x = .nan then some .nan
  else if y = .nan then (if x = .fin 1 then some (.fin 1) else some .nan)
  else if x = .ukn ∨ y = .ukn ∨ x = .cplx ∨ y = .cplx then some .ukn
  else
    match x, y with
    | x, .inf => some (powMagInf x true)
    | x, .ninf => some (powMagInf x false)
    | .inf, .fin q => some (if 0 < q then .inf else .fin 0)
    | .ninf, .fin q =>
        some (if 0 < q then (if intOdd q then .ninf else .inf) else .fin 0)
    | .fin a, .fin q =>
        if a = 0 then (if q < 0 then none else some (.fin 0))
        else if q.den = 1 then some (.fin (a ^ q.num))
        else if 0 < a then some .ukn
        else some .cplx
    | _, _ => some .ukn

/-- The six operation names of `ExpressionEvaluator.operations`. -/
def opNames : List String := ["add", "subtract", "multiply", "divide", "exp", "greater"]

/-- Dispatch on the operation table.  `none` models an exception raised by
the operation itself (only `exp` can raise: ZeroDivisionError).  The
divide-by-zero guard `x / y if y != 0 else float('inf')` tests only `y`:
only the float `0.0` compares equal to `0`. -/
def applyOp (name : String) (x y : PyVal) : Option PyVal :=
  if name = "add" then some (pyAdd x y)
  else if name = "subtract" then some (pySub x y)
  else if name = "multiply" then some (pyMul x y)
  else if name = "divide" then
    (if y = .fin 0 then some .inf else some (pyDivNZ x y))
  else if name = "exp" then pyExpOp x y
  else if name = "greater" then some (pyGreaterOp x y)
  else none

/-! ### Python `float(...)` on strings

Model of Python's `float` constructor restricted to inputs without
underscore digit separators: optional surrounding whitespace, an optional
sign, then either (case-insensitively) `inf`/`infinity`/`nan` or a decimal
numeral `digits [. digits] [e/E [sign] digits]` with at least one mantissa
digit. -/

def digitsToNat (l : List Char) : ℕ :=
  l.foldl (fun a c => 10 * a + (c.toNat - 48)) 0

/-- Strip leading and trailing whitespace from a character list. -/
def pyStrip (l : List Char) : List Char :=
  ((l.dropWhile Char.isWhitespace).reverse.dropWhile Char.isWhitespace).reverse

def parseSpecial (l : List Char) : Option PyVal :=
  let s := l.map Char.toLower
  if s = ['i', 'n', 'f'] ∨ s = ['i', 'n', 'f', 'i', 'n', 'i', 't', 'y'] then some .inf
  else if s = ['n', 'a', 'n'] then some .nan
  else none

/-- A run of decimal digits making up an exponent; fails unless the whole
remainder is one or more digits. -/
def parseDigitRun (l : List Char) : Option ℕ :=
  if l ≠ [] ∧ l.all Char.isDigit then some (digitsToNat l) else none

/-- Exponent part after `e`/`E`: optional sign then digits. -/
def parseSignedDigits (l : List Char) : Option ℤ :=
  match l with
  | '+' :: r => (parseDigitRun r).map (fun n => (n : ℤ))
  | '-' :: r => (parseDigitRun r).map (fun n => -(n : ℤ))
  | r => (parseDigitRun r).map (fun n => (n : ℤ))

/-- The optional `e…`/`E…` suffix; the empty remainder means exponent 0. -/
def parseExpPart : List Char → Option ℤ
  | [] => some 0
  | 'e' :: r => parseSignedDigits r
  | 'E' :: r => parseSignedDigits r
  | _ => none

/-- Unsigned decimal numeral with optional fraction and exponent. -/
def parseUDec (l : List Char) : Option ℚ :=
  let ip := l.takeWhile Char.isDigit
  let r1 := l.dropWhile Char.isDigit
  match r1 with
  | '.' :: r2 =>
      let fp := r2.takeWhile Char.isDigit
      let r3 := r2.dropWhile Char.isDigit
      if ip = [] ∧ fp = [] then none
      else
        (parseExpPart r3).map (fun e =>
          ((digitsToNat ip : ℚ) + (digitsToNat fp : ℚ) / 10 ^ fp.length) * 10 ^ e)
  | _ =>
      if ip = [] then none
      else (parseExpPart r1).map (fun e => (digitsToNat ip : ℚ) * 10 ^ e)

def pyFloatUnsigned (l : List Char) (negSign : Bool) : Option PyVal :=
  match parseSpecial l with
  | some .inf => some (if negSign then .ninf else .inf)
  | some v => some v
  | none => (parseUDec l).map (fun q => .fin (if negSign then -q else q))

/-- Python `float(s)`. -/
def pyFloat? (s : String) : Option PyVal :=
  match pyStrip s.data with
  | '+' :: r => pyFloatUnsigned r false
  | '-' :: r => pyFloatUnsigned r true
  | l => pyFloatUnsigned l false

/-! ### The rewriting evaluator (`ExpressionEvaluator.evaluate`)

The source repeatedly regex-searches `(\w+)\(([^()]+)\)`, evaluates the
matched call and splices `str(result)` back into the expression string.
Since Python `float(str(v)) == v` for every float `v`, a spliced finite /
infinite / NaN result is modelled as an opaque numeral token `Seg.val v`
rather than a character rendering (whose exact digits depend on binary
doubles).  A complex result is spliced as characters: its `str` form
contains parentheses; only the facts that it contains `(`/`)` and no
matchable call matter, so the placeholder characters `(1j)` stand for it. -/

inductive Seg where
  | chr (c : Char)
  | val (v : PyVal)
  deriving DecidableEq, Repr

/-- Python regex `\w` (ASCII assumption).  A `val` token renders as a
numeral; it never starts a name match in any reachable state, so it is
treated as a non-word token. -/
def pyWordChar (c : Char) : Bool := c.isAlphanum || c = '_'

def wordSeg : Seg → Bool
  | .chr c => pyWordChar c
  | .val _ => false

/-- A segment allowed inside the `[^()]+` argument region. -/
def argSeg : Seg → Bool
  | .chr '(' => false
  | .chr ')' => false
  | _ => true

def isChrSeg : Seg → Bool
  | .chr _ => true
  | .val _ => false

def segChars (l : List Seg) : List Char :=
  l.foldr (fun s acc => match s with | .chr c => c :: acc | .val _ => acc) []

def strSegs (s : String) : List Seg := s.data.map Seg.chr

/-- Regex match attempt anchored at the head of `l`: a maximal nonempty run
of word segments, `(`, a maximal nonempty run of non-parenthesis segments,
`)`.  (Greedy `\w+` and `[^()]+` with backtracking reduce to exactly this.) -/
def matchAt (l : List Seg) : Option (String × List Seg × List Seg) :=
  let w := l.takeWhile wordSeg
  let l1 := l.dropWhile wordSeg
  if w = [] then none
  else
    match l1 with
    | .chr '(' :: l2 =>
        let a := l2.takeWhile argSeg
        let l3 := l2.dropWhile argSeg
        if a = [] then none
        else
          match l3 with
          | .chr ')' :: post => some (⟨segChars w⟩, a, post)
          | _ => none
    | _ => none

/-- `re.search`: the leftmost position at which `matchAt` succeeds; returns
(segments before the match, function name, argument segments, segments
after the match). -/
def findMatch : List Seg → Option (List Seg × String × List Seg × List Seg)
  | [] => none
  | s :: rest =>
      match matchAt (s :: rest) with
      | some (n, a, post) => some ([], n, a, post)
      | none => (findMatch rest).map (fun r => (s :: r.1, r.2.1, r.2.2.1, r.2.2.2))

/-- `str.split(',')` on the argument region. -/
def splitArgs : List Seg → List (List Seg)
  | [] => [[]]
  | .chr ',' :: rest => [] :: splitArgs rest
  | s :: rest =>
      match splitArgs rest with
      | [] => [[s]]
      | g :: gs => (s :: g) :: gs

/-- `float(...)` applied to a run of segments: a single numeral token keeps
its value (`float(str(v)) == v`); an all-character run is parsed; a mixed
run (a numeral token juxtaposed with stray characters) is not reachable
from any input the claims concern and is modelled as a failure. -/
def segFloat? (l : List Seg) : Option PyVal :=
  match l with
  | [.val v] => some v
  | l => if l.all isChrSeg then pyFloat? ⟨segChars l⟩ else none

/-- Placeholder for `str` of a complex result (e.g.
`(6.123233995736766e-17+1j)`): contains parentheses, contains no matchable
call, parses as no float. -/
def cplxSegs : List Seg := [.chr '(', .chr '1', .chr 'j', .chr ')']

/-- The three ValueError classes `evaluate` raises, identified by their
message templates:
`invalidFormat` ↔ "Invalid expression format: …" (no regex match),
`unknownOp n` ↔ "Unknown operation: n",
`evalError n` ↔ "Error evaluating n(…): …" (the try/except wrapper). -/
inductive EvalErr where
  | invalidFormat
  | unknownOp (name : String)
  | evalError (name : String)
  deriving DecidableEq, Repr

def hasLParen (l : List Seg) : Bool := l.any (· = .chr '(')

/-- One-at-a-time model of the `while True` rewriting loop, with explicit
fuel (`none` = fuel exhausted; `loopE_fuel` below shows `length + 1` fuel
never runs out). -/
def loopE : ℕ → List Seg → Option (Except EvalErr PyVal)
  | 0, _ => none
  | n + 1, segs =>
      match findMatch segs with
      | none => some (.error .invalidFormat)
      | some (pre, name, args, post) =>
          if opNames.contains name then
            match (splitArgs args).mapM segFloat? with
            | none => some (.error (.evalError name))
            | some [x, y] =>
                match applyOp name x y with
                | none => some (.error (.evalError name))
                | some r =>
                    let segs' := pre ++ (if r = .cplx then cplxSegs else [.val r]) ++ post
                    if hasLParen segs' then loopE n segs'
                    else
                      match segFloat? segs' with
                      | some v => some (.ok v)
                      | none => some (.error (.evalError name))
            | some _ => some (.error (.evalError name))
          else some (.error (.unknownOp name))

/-- `expression.replace(" ", "")`. -/
def removeSpaces (s : String) : String := ⟨s.data.filter (· ≠ ' ')⟩

/-- `ExpressionEvaluator.evaluate`: strip spaces, try `float` directly,
otherwise run the rewriting loop. -/
def evaluate (s : String) : Except EvalErr PyVal :=
  let t := removeSpaces s
  match pyFloat? t with
  | some v => .ok v
  | none =>
      let segs := strSegs t
      (loopE (segs.length + 1) segs).getD (.error .invalidFormat)

/-! ### `AnswerFormatter` (src/models/answer_formatter.py)

Field naming: `prefix`/`suffix` are Lean keywords, so the structures use
`pfx`/`sfx` for the source's `prefix`/`suffix` fields.  `rounding` is a
natural number, per the data-model invariant `rounding ≥ 0`. -/

structure FormattingInstructions where
  pfx : String
  sfx : String
  rounding : ℕ
  multiplier : ℚ
  deriving DecidableEq, Repr

/-- Round-half-to-even to an integer (Python `round` on the idealized exact
value). -/
def rhe (q : ℚ) : ℤ :=
  let f := ⌊q⌋
  let r := q - f
  if r < 1 / 2 then f
  else if 1 / 2 < r then f + 1
  else if f % 2 = 0 then f else f + 1

/-- Python `round(q, r)` for `r ≥ 0`, idealized to exact arithmetic. -/
def pyRound (q : ℚ) (r : ℕ) : ℚ := (rhe (q * 10 ^ r) : ℚ) / 10 ^ r

def digitChar : ℕ → Char
  | 0 => '0' | 1 => '1' | 2 => '2' | 3 => '3' | 4 => '4'
  | 5 => '5' | 6 => '6' | 7 => '7' | 8 => '8' | _ => '9'

/-- Decimal digits, fuel-based so that concrete runs reduce in the
kernel (`digs_fuel` shows `n + 1` fuel always suffices). -/
def digsAux : ℕ → ℕ → List Char
  | 0, _ => []
  | fuel + 1, n =>
      if n < 10 then [digitChar n]
      else digsAux fuel (n / 10) ++ [digitChar (n % 10)]

/-- Decimal digits of a natural number, most significant first. -/
def digs (n : ℕ) : List Char := digsAux (n + 1) n

def padZeros (k : ℕ) (l : List Char) : List Char :=
  List.replicate (k - l.length) '0' ++ l

/-- `"{:.rf}".format(q)`: round to `r` decimals (half-even) and render with
exactly `r` digits after the point, zero-padded.  (Idealized: Python's
negative zero renders as `-0.00…`; the exact model has no negative zero.) -/
def fixedFormat (q : ℚ) (r : ℕ) : String :=
  let m := rhe (q * 10 ^ r)
  let sign : List Char := if m < 0 then ['-'] else []
  let a := m.natAbs
  if r = 0 then ⟨sign ++ digs a⟩
  else ⟨sign ++ digs (a / 10 ^ r) ++ '.' :: padZeros r (digs (a % 10 ^ r))⟩

/-- `AnswerFormatter.format_number`: multiply, round, render with fixed
decimals, concatenate prefix ++ numeral ++ suffix. -/
def format_number (number : ℚ) (instructions : FormattingInstructions) : String :=
  let value := number * instructions.multiplier
  let rounded := pyRound value instructions.rounding
  instructions.pfx ++ fixedFormat rounded instructions.rounding ++ instructions.sfx

/-- `AnswerFormatter.parse_instructions` defaults (prefix "", suffix "",
rounding 2, multiplier 1). -/
def defaultInstructions : FormattingInstructions := ⟨"", "", 2, 1⟩

/-! ### `AnswerEvaluator` (src/evaluation/answer_evaluator.py) -/

structure ParsedAnswer where
  raw_string : String
  number : ℚ
  pfx : String
  sfx : String
  decimal_places : ℕ
  deriving DecidableEq, Repr

/-- Character class stopping the prefix scan: regex `^[^\d.-]*`. -/
def prefStop (c : Char) : Bool := c.isDigit || c = '.' || c = '-'

/-- Character class stopping the suffix scan: regex `[^\d.]*$`. -/
def sufStop (c : Char) : Bool := c.isDigit || c = '.'

/-- `len(number_str.split('.')[1])` when a dot is present, else 0. -/
def decimalPlacesOf (l : List Char) : ℕ :=
  if l.contains '.' then (((l.dropWhile (· ≠ '.')).drop 1).takeWhile (· ≠ '.')).length
  else 0

/-- `AnswerEvaluator.parse_answer`.  The parse error is the ValueError
message `f"Could not parse number from {answer}"` (with `answer` already
stripped, as in the source).  A non-finite parse result cannot arise in the
exact model (the trailing scan strips every alphabetic character, and exact
arithmetic does not overflow), so `number` is a rational. -/
def parse_answer (answer : String) : Except String ParsedAnswer :=
  let a := pyStrip answer.data
  let p := a.takeWhile (fun c => !prefStop c)
  let sfx := (a.reverse.takeWhile (fun c => !sufStop c)).reverse
  let numStr := (a.drop p.length).take (a.length - sfx.length - p.length)
  match pyFloat? ⟨numStr⟩ with
  | some (.fin q) => .ok ⟨⟨a⟩, q, ⟨p⟩, ⟨sfx⟩, decimalPlacesOf numStr⟩
  | _ => .error ("Could not parse number from " ++ ⟨a⟩)

/-- `AnswerEvaluator._calculate_smape`. -/
def calculate_smape (generated expected : ℚ) : ℚ :=
  if |generated| = 0 ∧ |expected| = 0 then 0
  else 200 * |generated - expected| / (|generated| + |expected|)

structure ComparisonResult where
  smape : ℚ
  pfx_match : Bool
  sfx_match : Bool
  decimal_places_match : Bool
  deriving DecidableEq, Repr

/-- `AnswerEvaluator.compare_answers`: parse both sides (the first failure
propagates, re-wrapped as `"Error comparing answers: …"`), then SMAPE and
exact-equality format checks. -/
def compare_answers (generated expected : String) : Except String ComparisonResult :=
  match parse_answer generated with
  | .error e => .error ("Error comparing answers: " ++ e)
  | .ok g =>
      match parse_answer expected with
      | .error e => .error ("Error comparing answers: " ++ e)
      | .ok ex =>
          .ok ⟨calculate_smape g.number ex.number,
               g.pfx == ex.pfx,
               g.sfx == ex.sfx,
               g.decimal_places == ex.decimal_places⟩

/-- Loop body of `evaluate_batch`: accumulator is
(prefix matches, suffix matches, decimal-places matches, SMAPE sum,
valid comparisons); a failed comparison leaves it unchanged (`continue`). -/
def batchStep (acc : ℕ × ℕ × ℕ × ℚ × ℕ) (p : String × String) : ℕ × ℕ × ℕ × ℚ × ℕ :=
  match compare_answers p.1 p.2 with
  | .error _ => acc
  | .ok r =>
      (acc.1 + (if r.pfx_match then 1 else 0),
       acc.2.1 + (if r.sfx_match then 1 else 0),
       acc.2.2.1 + (if r.decimal_places_match then 1 else 0),
       acc.2.2.2.1 + r.smape,
       acc.2.2.2.2 + 1)

/-- `AnswerEvaluator.evaluate_batch`, the returned dict modelled as an
association list in insertion order: empty input returns the empty dict;
otherwise the three `…_rate` keys divide by the total number of submitted
pairs, and `mean_smape` is present only when at least one comparison
succeeded. -/
def evaluate_batch (pairs : List (String × String)) : List (String × ℚ) :=
  let total := pairs.length
  if total = 0 then []
  else
    let st := pairs.foldl batchStep (0, 0, 0, 0, 0)
    [("prefix_match_rate", (st.1 : ℚ) / total),
     ("suffix_match_rate", (st.2.1 : ℚ) / total),
     ("decimal_places_match_rate", (st.2.2.1 : ℚ) / total)]
    ++ (if 0 < st.2.2.2.2 then [("mean_smape", st.2.2.2.1 / (st.2.2.2.2 : ℚ))] else [])

/-! ### `AnswerProcessor.process_answer` (src/models/answer_processor.py)

Modelled from the point where the LLM response has been JSON-decoded into a
dictionary (the fence-stripping and `json.loads` text manipulation is not
needed by any claim).  Error strings reproduce the source's ValueError
messages; the generic `except Exception` wrapper prepends
`"Error processing answer: "`. -/

inductive JVal where
  | jnull
  | jbool (b : Bool)
  | jnum (q : ℚ)
  | jstr (s : String)
  | jarr (l : List JVal)
  | jobj (l : List (String × JVal))

/-- Python `dict.get(k)` (`None` when absent). -/
def dictGet (l : List (String × JVal)) (k : String) : Option JVal :=
  match l.find? (fun p => p.1 == k) with
  | some p => some p.2
  | none => none

/-- Python truthiness of an optional JSON value (`None`, `""`, `{}`, `[]`,
`0`, `false` are falsy). -/
def pyTruthy : Option JVal → Bool
  | none => false
  | some .jnull => false
  | some (.jbool b) => b
  | some (.jnum q) => decide (q ≠ 0)
  | some (.jstr s) => s ≠ ""
  | some (.jarr l) => !l.isEmpty
  | some (.jobj l) => !l.isEmpty

/-- Render for the ValueError message of a failed evaluation (detail text
abridged; only the class of message matters to the claims). -/
def evalErrMsg : EvalErr → String
  | .invalidFormat => "Invalid expression format"
  | .unknownOp n => "Unknown operation: " ++ n
  | .evalError n => "Error evaluating " ++ n

/-- `AnswerFormatter.parse_instructions` from a JSON object, with the
source's defaults; a value of an unexpected type is modelled as `none`
(Python would raise a TypeError later, also caught by the generic
handler). -/
def parse_instructions (kvs : List (String × JVal)) : Option FormattingInstructions :=
  let pfx := match dictGet kvs "prefix" with
    | none => some "" | some (.jstr s) => some s | _ => none
  let sfx := match dictGet kvs "suffix" with
    | none => some "" | some (.jstr s) => some s | _ => none
  let rnd := match dictGet kvs "rounding" with
    | none => some 2
    | some (.jnum q) => if q.den = 1 ∧ 0 ≤ q.num then some q.num.toNat else none
    | _ => none
  let mul := match dictGet kvs "multiplier" with
    | none => some 1 | some (.jnum q) => some q | _ => none
  match pfx, sfx, rnd, mul with
  | some p, some s, some r, some m => some ⟨p, s, r, m⟩
  | _, _, _, _ => none

/-- Rendering of a non-finite evaluation result by `"{:.rf}".format`
(Python prints `inf`/`-inf`/`nan`); unmodelled finite values render as an
unspecified placeholder. -/
def nonFinStr : PyVal → String
  | .inf => "inf"
  | .ninf => "-inf"
  | .nan => "nan"
  | _ => "?"

/-- `AnswerProcessor.process_answer` from the decoded response dictionary:
extract `formula` and `formatting_instructions`, raise
"Missing required fields in LLM response" if either is falsy (absent,
empty string, or empty object), evaluate, format.  Every ValueError raised
inside is re-wrapped by `except Exception` as
`"Error processing answer: …"`. -/
def process_answer (response_dict : List (String × JVal)) : Except String String :=
  let formula := dictGet response_dict "formula"
  let format_dict := dictGet response_dict "formatting_instructions"
  if !pyTruthy formula || !pyTruthy format_dict then
    .error "Error processing answer: Missing required fields in LLM response"
  else
    match formula, format_dict with
    | some (.jstr f), some (.jobj kvs) =>
        match evaluate f with
        | .error e => .error ("Error processing answer: " ++ evalErrMsg e)
        | .ok v =>
            match parse_instructions kvs with
            | none => .error "Error processing answer: bad formatting instructions"
            | some instr =>
                match v with
                | .fin q => .ok (format_number q instr)
                | v => .ok (instr.pfx ++ nonFinStr v ++ instr.sfx)
    | _, _ => .error "Error processing answer: bad field types"

/-! ### Well-formed expressions (for the totality claim)

`PExpr` is the abstract tree of the expression grammar: numeral leaves
(`lit`, the characters of the input) or binary calls; `pval` leaves mark
positions already rewritten to a numeral token during evaluation. -/

inductive PExpr where
  | lit (s : String)
  | pval (v : PyVal)
  | call (op : String) (a b : PExpr)
  deriving DecidableEq, Repr

def renderP : PExpr → List Seg
  | .lit s => strSegs s
  | .pval v => [.val v]
  | .call op a b =>
      strSegs op ++ .chr '(' :: (renderP a ++ .chr ',' :: (renderP b ++ [.chr ')']))

/-- The character string of a tree without `pval` leaves. -/
def renderStr (t : PExpr) : String := ⟨segChars (renderP t)⟩

/-- Characters allowed in a numeral leaf (no parentheses, commas, spaces,
or alphabetic characters other than an exponent marker). -/
def numChar (c : Char) : Bool :=
  c.isDigit || c = '.' || c = '-' || c = '+' || c = 'e' || c = 'E'

/-- Syntactic well-formedness: numeral leaves are nonempty and made of
numeral characters; operation names are nonempty words. -/
def wfB : PExpr → Bool
  | .lit s => !s.data.isEmpty && s.data.all numChar
  | .pval _ => true
  | .call op a b => !op.data.isEmpty && op.data.all pyWordChar && wfB a && wfB b

def noPval : PExpr → Bool
  | .lit _ => true
  | .pval _ => false
  | .call _ a b => noPval a && noPval b

def callCount : PExpr → ℕ
  | .call _ a b => callCount a + callCount b + 1
  | _ => 0

/-- Reference (denotational) evaluation of a tree, post-order: `none` when
a leaf does not parse, an operation name is unknown, or an operation raises
or produces a complex value. -/
def evalAst : PExpr → Option PyVal
  | .lit s => pyFloat? s
  | .pval v => some v
  | .call op a b => do
      let x ← evalAst a
      let y ← evalAst b
      if opNames.contains op then
        match applyOp op x y with
        | some r => if r = .cplx then none else some r
        | none => none
      else none

/-- The leftmost-innermost call (both arguments leaves) — the call the
regex search selects. -/
def redex? : PExpr → Option (String × PExpr × PExpr)
  | .lit _ => none
  | .pval _ => none
  | .call op a b =>
      match redex? a with
      | some r => some r
      | none =>
          match redex? b with
          | some r => some r
          | none => some (op, a, b)

/-- Replace the leftmost-innermost call by a numeral token carrying `r`. -/
def repl (r : PyVal) : PExpr → PExpr
  | .lit s => .lit s
  | .pval v => .pval v
  | .call op a b =>
      if (redex? a).isSome then .call op (repl r a) b
      else if (redex? b).isSome then .call op a (repl r b)
      else .pval r

/-- Shape of the segments that may follow a subtree inside a rendered
expression: nothing, or starting with `,` or `)`. -/
def tailOk : List Seg → Prop
  | [] => True
  | .chr ',' :: _ => True
  | .chr ')' :: _ => True
  | _ => False

/-- Does `evaluate` report the "Invalid expression format" (malformed
expression) ValueError? -/
def isInvalidFormat : Except EvalErr PyVal → Bool
  | .error .invalidFormat => true
  | _ => false

/-! Helper predicates for the batch-metrics claim: the per-pair outcomes a
reader of `evaluate_batch` counts. -/

def cmpOk (p : String × String) : Bool :=
  match compare_answers p.1 p.2 with
  | .ok _ => true
  | .error _ => false

def cmpPfx (p : String × String) : Bool :=
  match compare_answers p.1 p.2 with
  | .ok r => r.pfx_match
  | .error _ => false

def cmpSfx (p : String × String) : Bool :=
  match compare_answers p.1 p.2 with
  | .ok r => r.sfx_match
  | .error _ => false

def cmpDp (p : String × String) : Bool :=
  match compare_answers p.1 p.2 with
  | .ok r => r.decimal_places_match
  | .error _ => false

def cmpSmape (p : String × String) : ℚ :=
  match compare_answers p.1 p.2 with
  | .ok r => r.smape
  | .error _ => 0

/-- Sum of the SMAPEs of the successfully compared pairs. -/
def smapeSum (pairs : List (String × String)) : ℚ :=
  (pairs.map cmpSmape).sum

/-- Is `pat` an initial run of `l`? -/
def listPre : List Char → List Char → Bool
  | [], _ => true
  | _ :: _, [] => false
  | a :: as, b :: bs => a == b && listPre as bs

/-- Does `needle` occur as a contiguous substring of `hay`? -/
def containsSub (needle hay : List Char) : Bool :=
  match hay with
  | [] => needle.isEmpty
  | _ :: t => listPre needle hay || containsSub needle t

/-- The numeral `number_str` rendered inside `format_number` (the source's
`"{:.{rounding}f}".format(round(number * multiplier, rounding))`). -/
def numeralOf (n : ℚ) (I : FormattingInstructions) : String :=
  fixedFormat (pyRound (n * I.multiplier) I.rounding) I.rounding

/-! ## Claim C3: division by zero -/

/-- Claim C3: for every dividend `x`, `divide(x, 0)` does not raise and
produces positive infinity (the dividend's sign is not consulted), and
`evaluate "divide(5, 0)"` returns `+inf`. -/
theorem c3_divide_by_zero :
    (∀ x : PyVal, applyOp "divide" x (.fin 0) = some .inf) ∧
    evaluate "divide(5, 0)" = .ok .inf :=
  ⟨fun _ => rfl, by decide⟩

/-! ## Claim C6: SMAPE formula and bounds -/

/-- Claim C6: for all parsed numbers `g`, `e`, the SMAPE computed by
`compare_answers` is 0 when both are zero and `200|g−e|/(|g|+|e|)`
otherwise, and it always lies in `[0, 200]`. -/
theorem c6_smape_formula_and_bounds (g e : ℚ) :
    calculate_smape g e =
      (if g = 0 ∧ e = 0 then 0 else 200 * |g - e| / (|g| + |e|)) ∧
    0 ≤ calculate_smape g e ∧ calculate_smape g e ≤ 200 := by
  have habs : (|g| = 0 ∧ |e| = 0) ↔ (g = 0 ∧ e = 0) := by
    constructor <;> rintro ⟨h1, h2⟩ <;> constructor <;> simp_all [abs_eq_zero]
  refine ⟨?_, ?_, ?_⟩
  · unfold calculate_smape
    by_cases h : g = 0 ∧ e = 0
    · rw [if_pos (habs.mpr h), if_pos h]
    · rw [if_neg (fun hh => h (habs.mp hh)), if_neg h]
  · unfold calculate_smape
    split
    · exact le_refl 0
    · positivity
  · unfold calculate_smape
    split
    · norm_num
    · rename_i h
      have hpos : 0 < |g| + |e| := by
        rcases (abs_nonneg g).lt_or_eq with h1 | h1
        · linarith [abs_nonneg e]
        · rcases (abs_nonneg e).lt_or_eq with h2 | h2
          · linarith
          · exact absurd ⟨h1.symm, h2.symm⟩ h
      rw [div_le_iff₀ hpos]
      have htri : |g - e| ≤ |g| + |e| := by
        calc |g - e| = |g + -e| := by ring_nf
          _ ≤ |g| + |(-e)| := abs_add _ _
          _ = |g| + |e| := by rw [abs_neg]
      nlinarith

/-! ## Claim C10: falsy required fields -/

/-- Claim C10: `process_answer` raises the missing-required-fields error
not only when `formula` or `formatting_instructions` is absent but also
when either is present with a falsy value (empty string, empty object). -/
theorem c10_falsy_fields (d : List (String × JVal))
    (h : pyTruthy (dictGet d "formula") = false ∨
         pyTruthy (dictGet d "formatting_instructions") = false) :
    process_answer d =
      .error "Error processing answer: Missing required fields in LLM response" := by
  have hc : (!pyTruthy (dictGet d "formula") ||
      !pyTruthy (dictGet d "formatting_instructions")) = true := by
    rcases h with h | h <;> simp [h]
  simp [process_answer, hc]

/-- Witness for C10 at the three concrete falsy shapes: absent key, empty
string formula, empty formatting-instructions object. -/
theorem c10_falsy_fields_witness :
    (pyTruthy (dictGet [("formula", JVal.jstr "add(1,2)")] "formatting_instructions") = false ∨ True) ∧
    process_answer [("formula", JVal.jstr "add(1,2)")] =
      .error "Error processing answer: Missing required fields in LLM response" ∧
    process_answer [("formula", JVal.jstr ""),
        ("formatting_instructions", JVal.jobj [("prefix", JVal.jstr "$")])] =
      .error "Error processing answer: Missing required fields in LLM response" ∧
    process_answer [("formula", JVal.jstr "add(1,2)"),
        ("formatting_instructions", JVal.jobj [])] =
      .error "Error processing answer: Missing required fields in LLM response" :=
  ⟨Or.inl rfl,
   c10_falsy_fields _ (Or.inr rfl),
   c10_falsy_fields _ (Or.inl rfl),
   c10_falsy_fields _ (Or.inr rfl)⟩

/-! ## Claim C9: comparison failure reporting -/

/-- Claim C9 counterexample: the failure message produced when the
generated side "abc" cannot be parsed is exactly the same as when the
expected side is "abc", so the error does not name which side failed
(it only identifies the offending string). -/
theorem c9_counterexample :
    compare_answers "abc" "5.0" = compare_answers "5.0" "abc" ∧
    compare_answers "abc" "5.0" =
      .error "Error comparing answers: Could not parse number from abc" ∧
    containsSub "generated".data
      "Error comparing answers: Could not parse number from abc".data = false ∧
    containsSub "expected".data
      "Error comparing answers: Could not parse number from abc".data = false := by
  refine ⟨by decide, by decide, by decide, by decide⟩

/-- Claim C9 amended: when a side cannot be decomposed, `compare_answers`
fails with a single descriptive ValueError that identifies the offending
string (but does not say which side failed; a failing generated side is
reported first); in particular `compare_answers "abc" "5.0"` fails and its
message contains "abc". -/
theorem c9_amended :
    (∀ g e m, parse_answer g = .error m →
      compare_answers g e = .error ("Error comparing answers: " ++ m)) ∧
    compare_answers "abc" "5.0" =
      .error "Error comparing answers: Could not parse number from abc" ∧
    containsSub "abc".data
      "Error comparing answers: Could not parse number from abc".data = true := by
  refine ⟨?_, by decide, by decide⟩
  intro g e m h
  unfold compare_answers
  rw [h]

/-- Witness for the universally quantified part of `c9_amended` at the
concrete failing input. -/
theorem c9_amended_witness :
    parse_answer "abc" = .error "Could not parse number from abc" ∧
    compare_answers "abc" "5.0" =
      .error ("Error comparing answers: " ++ "Could not parse number from abc") :=
  ⟨by decide, c9_amended.1 "abc" "5.0" "Could not parse number from abc" (by decide)⟩

/-! ## Claim C8: error classes of `evaluate` -/

/-- Claim C8 counterexample: a malformed argument count (`add(1,2,3)`) does
not fail with the "Invalid expression format" (malformed expression)
ValueError; the TypeError raised by the two-argument lambda is caught and
re-raised as the "Error evaluating add(...)" ValueError. -/
theorem c8_counterexample :
    isInvalidFormat (evaluate "add(1,2,3)") = false ∧
    evaluate "add(1,2,3)" = .error (.evalError "add") := by
  refine ⟨by decide, by decide⟩

/-- Claim C8 amended: `evaluate` fails with distinct descriptive errors:
an unknown operation name in a matched call always yields the
"Unknown operation: <name>" error (proved for every expression whose first
regex match has an unknown name); an input with no matchable call yields
the "Invalid expression format" error; malformed argument counts and a
residual non-numeral after a reduction yield the
"Error evaluating <name>…" error. -/
theorem c8_amended :
    (∀ (fuel : ℕ) (segs pre args post : List Seg) (name : String),
        findMatch segs = some (pre, name, args, post) →
        opNames.contains name = false →
        loopE (fuel + 1) segs = some (.error (.unknownOp name))) ∧
    evaluate "foo(1,2)" = .error (.unknownOp "foo") ∧
    evaluate "add(1,2,3)" = .error (.evalError "add") ∧
    evaluate "abc" = .error .invalidFormat ∧
    evaluate "multiply(2,3)x" = .error (.evalError "multiply") := by
  refine ⟨?_, by decide, by decide, by decide, by decide⟩
  intro fuel segs pre args post name h hn
  unfold loopE
  rw [h]
  simp [hn]
  intro hmem
  rw [show opNames.contains name = opNames.elem name from rfl,
    List.elem_iff.mpr hmem] at hn
  exact Bool.noConfusion hn

/-- Witness for the universally quantified part of `c8_amended` at a
concrete unknown-operation input. -/
theorem c8_amended_witness :
    findMatch (strSegs "foo(1,2)") =
      some ([], "foo", [Seg.chr '1', Seg.chr ',', Seg.chr '2'], []) ∧
    opNames.contains "foo" = false ∧
    loopE 1 (strSegs "foo(1,2)") = some (.error (.unknownOp "foo")) :=
  ⟨by decide, by decide,
   c8_amended.1 0 (strSegs "foo(1,2)") [] [Seg.chr '1', Seg.chr ',', Seg.chr '2'] []
     "foo" (by decide) (by decide)⟩

/-! ## Claim C7: `exp` with negative base and fractional exponent -/

/-- Claim C7 counterexample: `exp(-1, 0.5)` does not produce NaN — Python
returns a complex number, and `evaluate` then fails with the
"Invalid expression format" ValueError (the complex value's string form
contains parentheses which never re-match). -/
theorem c7_counterexample :
    evaluate "exp(-1,0.5)" = .error .invalidFormat ∧
    evaluate "exp(-1,0.5)" ≠ .ok .nan := by
  refine ⟨by decide, by decide⟩

/-- Claim C7 amended: `exp` with a finite negative base and a finite
non-integer exponent yields a Python complex value (not NaN); the
evaluator then surfaces this as the controlled "Invalid expression format"
(malformed expression) ValueError rather than a crash. -/
theorem c7_amended :
    (∀ a q : ℚ, a < 0 → q.den ≠ 1 →
      applyOp "exp" (.fin a) (.fin q) = some .cplx) ∧
    evaluate "exp(-1,0.5)" = .error .invalidFormat := by
  refine ⟨?_, by decide⟩
  intro a q ha hq
  have hq0 : q ≠ 0 := fun h => hq (by rw [h]; rfl)
  have h1 : PyVal.fin q ≠ PyVal.fin 0 := by
    intro h
    exact hq0 (by injection h)
  have h2 : PyVal.fin a ≠ PyVal.nan := by intro h; exact PyVal.noConfusion h
  have h3 : PyVal.fin q ≠ PyVal.nan := by intro h; exact PyVal.noConfusion h
  have h4 : ¬(PyVal.fin a = PyVal.ukn ∨ PyVal.fin q = PyVal.ukn ∨
      PyVal.fin a = PyVal.cplx ∨ PyVal.fin q = PyVal.cplx) := by
    rintro (h | h | h | h) <;> exact PyVal.noConfusion h
  have ha0 : a ≠ 0 := ne_of_lt ha
  have hna : ¬(0 < a) := not_lt.mpr (le_of_lt ha)
  show applyOp "exp" (.fin a) (.fin q) = some .cplx
  rw [show applyOp "exp" (.fin a) (.fin q) = pyExpOp (.fin a) (.fin q) from rfl]
  unfold pyExpOp
  rw [if_neg h1, if_neg h2, if_neg h3, if_neg h4]
  show (if a = 0 then _ else if q.den = 1 then _ else if 0 < a then _ else some PyVal.cplx) =
    some PyVal.cplx
  rw [if_neg ha0, if_neg hq, if_neg hna]

/-- Witness for the universally quantified part of `c7_amended` at the
concrete input `exp(-1, 0.5)`. -/
theorem c7_amended_witness :
    (-1 : ℚ) < 0 ∧ ((1 : ℚ) / 2).den ≠ 1 ∧
    applyOp "exp" (.fin (-1)) (.fin (1 / 2)) = some .cplx :=
  ⟨by norm_num, by decide, c7_amended.1 (-1) (1 / 2) (by norm_num) (by decide)⟩

/-! ## Claim C4: batch metrics -/

/-- The loop of `evaluate_batch` computes, for any initial accumulator,
the match counts, the SMAPE sum over successful comparisons, and the count
of successful comparisons. -/
theorem batch_fold_spec (pairs : List (String × String)) (a b c : ℕ) (s : ℚ) (v : ℕ) :
    pairs.foldl batchStep (a, b, c, s, v) =
      (a + pairs.countP cmpPfx, b + pairs.countP cmpSfx, c + pairs.countP cmpDp,
       s + smapeSum pairs, v + pairs.countP cmpOk) := by
  induction pairs generalizing a b c s v with
  | nil => simp [smapeSum]
  | cons p t ih =>
    rw [List.foldl_cons]
    have hsum : smapeSum (p :: t) = cmpSmape p + smapeSum t := by
      simp [smapeSum]
    cases hc : compare_answers p.1 p.2 with
    | error e =>
        have hstep : batchStep (a, b, c, s, v) p = (a, b, c, s, v) := by
          unfold batchStep; rw [hc]
        rw [hstep, ih]
        have h1 : cmpPfx p = false := by unfold cmpPfx; rw [hc]
        have h2 : cmpSfx p = false := by unfold cmpSfx; rw [hc]
        have h3 : cmpDp p = false := by unfold cmpDp; rw [hc]
        have h4 : cmpOk p = false := by unfold cmpOk; rw [hc]
        have h5 : cmpSmape p = 0 := by unfold cmpSmape; rw [hc]
        simp [List.countP_cons, h1, h2, h3, h4, h5, hsum]
    | ok r =>
        have hstep : batchStep (a, b, c, s, v) p =
            (a + (if r.pfx_match then 1 else 0), b + (if r.sfx_match then 1 else 0),
             c + (if r.decimal_places_match then 1 else 0), s + r.smape, v + 1) := by
          unfold batchStep; rw [hc]
        rw [hstep, ih]
        have h1 : cmpPfx p = r.pfx_match := by unfold cmpPfx; rw [hc]
        have h2 : cmpSfx p = r.sfx_match := by unfold cmpSfx; rw [hc]
        have h3 : cmpDp p = r.decimal_places_match := by unfold cmpDp; rw [hc]
        have h4 : cmpOk p = true := by unfold cmpOk; rw [hc]
        have h5 : cmpSmape p = r.smape := by unfold cmpSmape; rw [hc]
        simp only [List.countP_cons, h1, h2, h3, h4, h5, hsum, if_true, Prod.mk.injEq]
        refine ⟨by omega, by omega, by omega, by ring, by omega⟩

/-- Claim C4: `evaluate_batch` returns the empty object on empty input;
otherwise each match rate is (count matched)/(total pairs submitted),
with unparseable pairs counting in the denominator as non-matches, and
`mean_smape` is present exactly when at least one pair compared
successfully, equal to the SMAPE average over those pairs only. -/
theorem c4_evaluate_batch (pairs : List (String × String)) :
    evaluate_batch [] = [] ∧
    (pairs ≠ [] →
      (evaluate_batch pairs).lookup "prefix_match_rate" =
        some ((pairs.countP cmpPfx : ℚ) / pairs.length) ∧
      (evaluate_batch pairs).lookup "suffix_match_rate" =
        some ((pairs.countP cmpSfx : ℚ) / pairs.length) ∧
      (evaluate_batch pairs).lookup "decimal_places_match_rate" =
        some ((pairs.countP cmpDp : ℚ) / pairs.length) ∧
      (evaluate_batch pairs).lookup "mean_smape" =
        (if 0 < pairs.countP cmpOk
         then some (smapeSum pairs / (pairs.countP cmpOk : ℚ))
         else none)) := by
  refine ⟨rfl, fun hne => ?_⟩
  have hlen : pairs.length ≠ 0 := fun h => hne (List.length_eq_zero.mp h)
  have hfold := batch_fold_spec pairs 0 0 0 0 0
  simp only [zero_add] at hfold
  simp only [evaluate_batch, hfold, if_neg hlen]
  refine ⟨by simp [List.lookup], by simp [List.lookup], by simp [List.lookup], ?_⟩
  by_cases hv : 0 < pairs.countP cmpOk
  · rw [if_pos hv, if_pos hv]
    simp [List.lookup]
  · rw [if_neg hv, if_neg hv]
    simp [List.lookup]

/-- Witness for C4 at a concrete two-pair batch (one pair unparseable):
rates divide by 2, the SMAPE average divides by 1. -/
theorem c4_evaluate_batch_witness :
    ([("1.0", "1.0"), ("abc", "2.0")] : List (String × String)) ≠ [] ∧
    (evaluate_batch [("1.0", "1.0"), ("abc", "2.0")]).lookup "prefix_match_rate" =
      some (([("1.0", "1.0"), ("abc", "2.0")].countP cmpPfx : ℚ) /
        ([("1.0", "1.0"), ("abc", "2.0")] : List (String × String)).length) :=
  ⟨by decide, ((c4_evaluate_batch [("1.0", "1.0"), ("abc", "2.0")]).2 (by decide)).1⟩

/-! ## List and digit lemmas shared by the formatter/parser claims -/

theorem takeWhile_all {α : Type} (p : α → Bool) (l : List α)
    (h : ∀ c ∈ l, p c = true) : l.takeWhile p = l := by
  induction l with
  | nil => rfl
  | cons x t ih =>
      rw [List.takeWhile_cons, h x (List.mem_cons_self x t)]
      rw [ih (fun c hc => h c (List.mem_cons_of_mem x hc))]
      simp

theorem dropWhile_all {α : Type} (p : α → Bool) (l : List α)
    (h : ∀ c ∈ l, p c = true) : l.dropWhile p = [] := by
  induction l with
  | nil => rfl
  | cons x t ih =>
      rw [List.dropWhile_cons, h x (List.mem_cons_self x t)]
      exact if_pos rfl ▸ ih (fun c hc => h c (List.mem_cons_of_mem x hc))

theorem takeWhile_append_stop {α : Type} (p : α → Bool) (xs : List α) (y : α) (ys : List α)
    (hxs : ∀ c ∈ xs, p c = true) (hy : p y = false) :
    (xs ++ y :: ys).takeWhile p = xs := by
  induction xs with
  | nil => simp [List.takeWhile_cons, hy]
  | cons x t ih =>
      rw [List.cons_append, List.takeWhile_cons, hxs x (List.mem_cons_self x t)]
      simp only [if_true]
      rw [ih (fun c hc => hxs c (List.mem_cons_of_mem x hc))]

theorem dropWhile_append_stop {α : Type} (p : α → Bool) (xs : List α) (y : α) (ys : List α)
    (hxs : ∀ c ∈ xs, p c = true) (hy : p y = false) :
    (xs ++ y :: ys).dropWhile p = y :: ys := by
  induction xs with
  | nil => simp [List.dropWhile_cons, hy]
  | cons x t ih =>
      rw [List.cons_append, List.dropWhile_cons, hxs x (List.mem_cons_self x t)]
      simp only [if_true]
      exact ih (fun c hc => hxs c (List.mem_cons_of_mem x hc))

theorem dropWhile_of_head {α : Type} (p : α → Bool) (l : List α)
    (h : ∀ x, l.head? = some x → p x = false) : l.dropWhile p = l := by
  cases l with
  | nil => rfl
  | cons x t => rw [List.dropWhile_cons, h x rfl]; simp

/-- `strip()` leaves a string unchanged when its first and last characters
are not whitespace. -/
theorem pyStrip_eq_self (l : List Char) (h1 : ∀ x, l.head? = some x → x.isWhitespace = false)
    (h2 : ∀ x, l.getLast? = some x → x.isWhitespace = false) : pyStrip l = l := by
  unfold pyStrip
  rw [dropWhile_of_head _ l h1]
  rw [dropWhile_of_head _ l.reverse (fun x hx => h2 x (by rwa [List.head?_reverse] at hx))]
  exact List.reverse_reverse l

theorem ne_of_digit_ne {c d : Char} (h : c.isDigit = true) (hd : d.isDigit = false) :
    c ≠ d := fun he => by rw [he, hd] at h; exact Bool.noConfusion h

theorem isDigit_not_ws (c : Char) (h : c.isDigit = true) : c.isWhitespace = false := by
  by_contra hw
  rw [Bool.not_eq_false] at hw
  have hval : ((c = ' ' ∨ c = '\t') ∨ c = '\r') ∨ c = '\n' := by
    simpa [Char.isWhitespace] using hw
  rcases hval with ((h1 | h1) | h1) | h1 <;> subst h1 <;> exact Bool.noConfusion h

theorem digitChar_isDigit (k : ℕ) : (digitChar k).isDigit = true := by
  unfold digitChar
  split <;> decide

theorem digitChar_toNat (k : ℕ) (h : k < 10) : (digitChar k).toNat - 48 = k := by
  interval_cases k <;> decide

theorem digitsToNat_init (l : List Char) : ∀ a : ℕ,
    l.foldl (fun a c => 10 * a + (c.toNat - 48)) a = a * 10 ^ l.length + digitsToNat l := by
  induction l with
  | nil => intro a; simp [digitsToNat]
  | cons c t ih =>
      intro a
      rw [List.foldl_cons]
      rw [ih (10 * a + (c.toNat - 48))]
      have hc : digitsToNat (c :: t) = (c.toNat - 48) * 10 ^ t.length + digitsToNat t := by
        unfold digitsToNat
        rw [List.foldl_cons]
        have := ih (10 * 0 + (c.toNat - 48))
        simpa using this
      rw [hc]
      ring_nf
      rw [List.length_cons]
      ring

theorem digitsToNat_append (l1 l2 : List Char) :
    digitsToNat (l1 ++ l2) = digitsToNat l1 * 10 ^ l2.length + digitsToNat l2 := by
  unfold digitsToNat
  rw [List.foldl_append]
  exact digitsToNat_init l2 _

theorem digitsToNat_replicate_zero (m : ℕ) : digitsToNat (List.replicate m '0') = 0 := by
  induction m with
  | zero => rfl
  | succ k ih =>
      rw [List.replicate_succ]
      unfold digitsToNat at ih ⊢
      rw [List.foldl_cons]
      simpa using ih

theorem digitsToNat_padZeros (k : ℕ) (l : List Char) :
    digitsToNat (padZeros k l) = digitsToNat l := by
  unfold padZeros
  rw [digitsToNat_append, digitsToNat_replicate_zero]
  simp

theorem digsAux_all_digit : ∀ (fuel n : ℕ), ∀ c ∈ digsAux fuel n, c.isDigit = true := by
  intro fuel
  induction fuel with
  | zero => intro n c hc; exact absurd hc (List.not_mem_nil c)
  | succ k ih =>
      intro n c hc
      unfold digsAux at hc
      by_cases h : n < 10
      · rw [if_pos h] at hc
        rcases List.mem_singleton.mp hc with h1
        rw [h1]; exact digitChar_isDigit n
      · rw [if_neg h] at hc
        rcases List.mem_append.mp hc with h1 | h1
        · exact ih (n / 10) c h1
        · rw [List.mem_singleton.mp h1]; exact digitChar_isDigit (n % 10)

theorem digs_all_digit (n : ℕ) : ∀ c ∈ digs n, c.isDigit = true :=
  digsAux_all_digit (n + 1) n

theorem digsAux_ne_nil : ∀ (fuel n : ℕ), 0 < fuel → digsAux fuel n ≠ [] := by
  intro fuel n h
  cases fuel with
  | zero => omega
  | succ k =>
      unfold digsAux
      by_cases h10 : n < 10
      · rw [if_pos h10]; exact List.cons_ne_nil _ _
      · rw [if_neg h10]
        intro hx
        rcases List.append_eq_nil.mp hx with ⟨_, h2⟩
        exact List.cons_ne_nil _ _ h2

theorem digs_ne_nil (n : ℕ) : digs n ≠ [] := digsAux_ne_nil (n + 1) n (by omega)

theorem digsAux_val : ∀ (fuel n : ℕ), n < fuel → digitsToNat (digsAux fuel n) = n := by
  intro fuel
  induction fuel with
  | zero => intro n h; omega
  | succ k ih =>
      intro n h
      unfold digsAux
      by_cases h10 : n < 10
      · rw [if_pos h10]
        show digitsToNat [digitChar n] = n
        unfold digitsToNat
        rw [List.foldl_cons]
        simpa using digitChar_toNat n h10
      · rw [if_neg h10]
        rw [digitsToNat_append]
        have hdiv : n / 10 < n := Nat.div_lt_self (by omega) (by omega)
        rw [ih (n / 10) (by omega)]
        have hmod : digitsToNat [digitChar (n % 10)] = n % 10 := by
          unfold digitsToNat
          rw [List.foldl_cons]
          simpa using digitChar_toNat (n % 10) (Nat.mod_lt n (by omega))
        rw [hmod]
        simp only [List.length_singleton, pow_one]
        omega

theorem digitsToNat_digs (n : ℕ) : digitsToNat (digs n) = n :=
  digsAux_val (n + 1) n (by omega)

theorem digsAux_len : ∀ (fuel n r : ℕ), n < fuel → 1 ≤ r → n < 10 ^ r →
    (digsAux fuel n).length ≤ r := by
  intro fuel
  induction fuel with
  | zero => intro n r h; omega
  | succ k ih =>
      intro n r h hr hnr
      unfold digsAux
      by_cases h10 : n < 10
      · rw [if_pos h10]; simpa using hr
      · rw [if_neg h10]
        have hr2 : 2 ≤ r := by
          by_contra hc
          have : r = 1 := by omega
          rw [this] at hnr
          simp at hnr
          omega
        have hdiv : n / 10 < n := Nat.div_lt_self (by omega) (by omega)
        have hlt : n / 10 < 10 ^ (r - 1) := by
          have h1 : (10 : ℕ) ^ r = 10 ^ (r - 1) * 10 := by
            rw [← pow_succ]
            congr 1
            omega
          rw [Nat.div_lt_iff_lt_mul (by omega)]
          rw [h1] at hnr
          exact hnr
        have := ih (n / 10) (r - 1) (by omega) (by omega) hlt
        rw [List.length_append, List.length_singleton]
        omega

theorem digs_len (n r : ℕ) (hr : 1 ≤ r) (h : n < 10 ^ r) : (digs n).length ≤ r :=
  digsAux_len (n + 1) n r (by omega) hr h

theorem digit_toLower (c : Char) (h : c.isDigit = true) : c.toLower = c := by
  unfold Char.toLower
  rw [if_neg]
  intro hcond
  obtain ⟨h1, _⟩ := hcond
  unfold Char.isDigit at h
  rw [Bool.and_eq_true] at h
  obtain ⟨_, h2⟩ := h
  have h3 : c ≤ '9' := of_decide_eq_true h2
  have h4 : c.val ≤ ('9' : Char).val := Char.le_def.mp h3
  have h5 : c.toNat ≤ 57 := h4
  omega

theorem parseSpecial_cons_digit (c : Char) (t : List Char) (hc : c.isDigit = true) :
    parseSpecial (c :: t) = none := by
  simp only [parseSpecial, List.map_cons, digit_toLower c hc]
  rw [if_neg, if_neg]
  · intro h
    injection h with h1 _
    exact ne_of_digit_ne hc (by decide) h1
  · rintro (h | h) <;> (injection h with h1 _; exact ne_of_digit_ne hc (by decide) h1)

theorem pyStrip_of_all (l : List Char) (h : ∀ c ∈ l, c.isWhitespace = false) :
    pyStrip l = l :=
  pyStrip_eq_self l (fun x hx => h x (List.mem_of_mem_head? hx))
    (fun x hx => h x (List.mem_of_mem_getLast? hx))

theorem padZeros_length (k : ℕ) (l : List Char) (h : l.length ≤ k) :
    (padZeros k l).length = k := by
  unfold padZeros
  rw [List.length_append, List.length_replicate]
  omega

theorem padZeros_all_digit (k : ℕ) (l : List Char) (h : ∀ c ∈ l, c.isDigit = true) :
    ∀ c ∈ padZeros k l, c.isDigit = true := by
  intro c hc
  unfold padZeros at hc
  rcases List.mem_append.mp hc with h1 | h1
  · rw [List.eq_of_mem_replicate h1]; decide
  · exact h c h1

theorem parseUDec_digs (i : ℕ) : parseUDec (digs i) = some (i : ℚ) := by
  simp only [parseUDec]
  rw [takeWhile_all Char.isDigit (digs i) (digs_all_digit i),
      dropWhile_all Char.isDigit (digs i) (digs_all_digit i)]
  show (if digs i = [] then none
        else (parseExpPart []).map fun e => (digitsToNat (digs i) : ℚ) * 10 ^ e) = some (i : ℚ)
  rw [if_neg (digs_ne_nil i), digitsToNat_digs]
  show some ((i : ℚ) * 10 ^ (0 : ℤ)) = some (i : ℚ)
  rw [zpow_zero, mul_one]

theorem parseUDec_digs_frac (i f r : ℕ) (hr : 1 ≤ r) (hf : f < 10 ^ r) :
    parseUDec (digs i ++ '.' :: padZeros r (digs f)) =
      some ((i : ℚ) + (f : ℚ) / 10 ^ r) := by
  have hdig := digs_all_digit i
  have hpad := padZeros_all_digit r (digs f) (digs_all_digit f)
  have hlen : (padZeros r (digs f)).length = r :=
    padZeros_length r (digs f) (digs_len f r hr hf)
  simp only [parseUDec]
  rw [takeWhile_append_stop Char.isDigit (digs i) '.' _ hdig (by decide),
      dropWhile_append_stop Char.isDigit (digs i) '.' _ hdig (by decide)]
  show (let fp := (padZeros r (digs f)).takeWhile Char.isDigit
        let r3 := (padZeros r (digs f)).dropWhile Char.isDigit
        if digs i = [] ∧ fp = [] then none
        else (parseExpPart r3).map fun e =>
          ((digitsToNat (digs i) : ℚ) + (digitsToNat fp : ℚ) / 10 ^ fp.length) * 10 ^ e) =
      some ((i : ℚ) + (f : ℚ) / 10 ^ r)
  rw [takeWhile_all Char.isDigit _ hpad, dropWhile_all Char.isDigit _ hpad]
  rw [if_neg (fun hand => digs_ne_nil i hand.1)]
  rw [digitsToNat_digs, digitsToNat_padZeros, digitsToNat_digs, hlen]
  show some (((i : ℚ) + (f : ℚ) / 10 ^ r) * 10 ^ (0 : ℤ)) = _
  rw [zpow_zero, mul_one]

theorem pyFloatUnsigned_digit (c : Char) (t : List Char) (hc : c.isDigit = true)
    (neg : Bool) :
    pyFloatUnsigned (c :: t) neg =
      (parseUDec (c :: t)).map (fun q => .fin (if neg then -q else q)) := by
  unfold pyFloatUnsigned
  rw [parseSpecial_cons_digit c t hc]

theorem pyFloat?_dash (t : List Char) (hall : ∀ x ∈ ('-' :: t), x.isWhitespace = false) :
    pyFloat? ⟨'-' :: t⟩ = pyFloatUnsigned t true := by
  unfold pyFloat?
  rw [show (String.mk ('-' :: t)).data = '-' :: t from rfl]
  rw [pyStrip_of_all _ hall]
  split
  · rename_i r heq
    injection heq with h1 _
    exact absurd h1 (by decide)
  · rename_i r heq
    injection heq with h1 h2
    rw [h2]
  · rename_i hne1 hne2
    exact absurd rfl (hne2 t)

theorem pyFloat?_digit (c : Char) (t : List Char) (hc : c.isDigit = true)
    (hall : ∀ x ∈ (c :: t), x.isWhitespace = false) :
    pyFloat? ⟨c :: t⟩ = pyFloatUnsigned (c :: t) false := by
  unfold pyFloat?
  rw [show (String.mk (c :: t)).data = c :: t from rfl]
  rw [pyStrip_of_all _ hall]
  split
  · rename_i r heq
    injection heq with h1 _
    exact absurd h1 (ne_of_digit_ne hc (by decide))
  · rename_i r heq
    injection heq with h1 _
    exact absurd h1 (ne_of_digit_ne hc (by decide))
  · rfl

/-- The character list rendered by `fixedFormat`. -/
theorem fixedFormat_data (q : ℚ) (r : ℕ) :
    (fixedFormat q r).data =
      (if rhe (q * 10 ^ r) < 0 then ['-'] else []) ++
      (if r = 0 then digs (rhe (q * 10 ^ r)).natAbs
       else digs ((rhe (q * 10 ^ r)).natAbs / 10 ^ r) ++
         '.' :: padZeros r (digs ((rhe (q * 10 ^ r)).natAbs % 10 ^ r))) := by
  unfold fixedFormat
  by_cases h : r = 0 <;> by_cases hm : rhe (q * 10 ^ r) < 0 <;> simp [h, hm]

theorem fixedFormat_chars (q : ℚ) (r : ℕ) :
    ∀ c ∈ (fixedFormat q r).data, c.isDigit = true ∨ c = '.' ∨ c = '-' := by
  intro c hc
  rw [fixedFormat_data] at hc
  rcases List.mem_append.mp hc with h1 | h1
  · right; right
    split at h1
    · rwa [List.mem_singleton] at h1
    · exact absurd h1 (List.not_mem_nil c)
  · split at h1
    · exact Or.inl (digs_all_digit _ c h1)
    · rcases List.mem_append.mp h1 with h2 | h2
      · exact Or.inl (digs_all_digit _ c h2)
      · rcases List.mem_cons.mp h2 with h3 | h3
        · exact Or.inr (Or.inl h3)
        · exact Or.inl (padZeros_all_digit _ _ (digs_all_digit _) c h3)

theorem fixedFormat_not_ws (q : ℚ) (r : ℕ) :
    ∀ c ∈ (fixedFormat q r).data, c.isWhitespace = false := by
  intro c hc
  rcases fixedFormat_chars q r c hc with h | h | h
  · exact isDigit_not_ws c h
  · rw [h]; decide
  · rw [h]; decide

/-- Auxiliary cast identity: integer and fractional decimal parts
recombine. -/
theorem div_mod_cast_q (a r : ℕ) :
    ((a / 10 ^ r : ℕ) : ℚ) + ((a % 10 ^ r : ℕ) : ℚ) / 10 ^ r = (a : ℚ) / 10 ^ r := by
  have h10 : ((10 : ℚ) ^ r) ≠ 0 := by positivity
  have hcast : (10 : ℚ) ^ r * ((a / 10 ^ r : ℕ) : ℚ) + ((a % 10 ^ r : ℕ) : ℚ) = (a : ℚ) := by
    exact_mod_cast Nat.div_add_mod a (10 ^ r)
  field_simp
  linarith

/-- `"{:.rf}"` output parses back (by the model of Python `float`) to the
value it denotes: `rhe (q * 10^r) / 10^r = pyRound q r`. -/
theorem pyFloat?_fixedFormat (q : ℚ) (r : ℕ) :
    pyFloat? (fixedFormat q r) = some (.fin (pyRound q r)) := by
  have hnws := fixedFormat_not_ws q r
  have hdata := fixedFormat_data q r
  set m := rhe (q * 10 ^ r) with hm
  set a := m.natAbs with ha
  have hval : (if r = 0 then digs a
      else digs (a / 10 ^ r) ++ '.' :: padZeros r (digs (a % 10 ^ r))) ≠ [] := by
    split
    · exact digs_ne_nil a
    · intro hx
      rcases List.append_eq_nil.mp hx with ⟨h1, _⟩
      exact digs_ne_nil _ h1
  have hudec : parseUDec (if r = 0 then digs a
      else digs (a / 10 ^ r) ++ '.' :: padZeros r (digs (a % 10 ^ r))) =
      some ((a : ℚ) / 10 ^ r) := by
    by_cases hr : r = 0
    · rw [if_pos hr, parseUDec_digs, hr]
      norm_num
    · rw [if_neg hr,
        parseUDec_digs_frac (a / 10 ^ r) (a % 10 ^ r) r (by omega)
          (Nat.mod_lt a (by positivity)), div_mod_cast_q]
  have hhead : ∃ c t, (if r = 0 then digs a
      else digs (a / 10 ^ r) ++ '.' :: padZeros r (digs (a % 10 ^ r))) = c :: t ∧
      c.isDigit = true := by
    by_cases hr : r = 0
    · rw [if_pos hr]
      obtain ⟨c, t, hct⟩ := List.exists_cons_of_ne_nil (digs_ne_nil a)
      exact ⟨c, t, hct, digs_all_digit a c (hct ▸ List.mem_cons_self c t)⟩
    · rw [if_neg hr]
      obtain ⟨c, t, hct⟩ := List.exists_cons_of_ne_nil (digs_ne_nil (a / 10 ^ r))
      refine ⟨c, t ++ '.' :: padZeros r (digs (a % 10 ^ r)), by rw [hct]; rfl, ?_⟩
      exact digs_all_digit _ c (hct ▸ List.mem_cons_self c t)
  obtain ⟨c, t, hct, hcdig⟩ := hhead
  have hround : pyRound q r = (m : ℚ) / 10 ^ r := by rw [pyRound]
  by_cases hneg : m < 0
  · -- negative: leading '-', unsigned part parses to a / 10^r, negated
    have hshape : (fixedFormat q r).data = '-' :: (c :: t) := by
      rw [hdata, if_pos hneg, hct]; rfl
    have : fixedFormat q r = ⟨'-' :: (c :: t)⟩ := by
      cases hfx : fixedFormat q r
      simp only [hfx] at hshape
      rw [hshape]
    rw [this]
    rw [pyFloat?_dash (c :: t) (by rw [← hshape]; exact hnws)]
    rw [pyFloatUnsigned_digit c t hcdig true, ← hct, hudec]
    have hZ : ((a : ℤ)) = -m := by
      rw [ha]; exact Int.ofNat_natAbs_of_nonpos (le_of_lt hneg)
    have hv : -(((a : ℚ)) / 10 ^ r) = (m : ℚ) / 10 ^ r := by
      have hq : ((a : ℚ)) = -(m : ℚ) := by exact_mod_cast hZ
      rw [hq]; ring
    rw [hround]
    show some (PyVal.fin (-((a : ℚ) / 10 ^ r))) = some (PyVal.fin ((m : ℚ) / 10 ^ r))
    rw [hv]
  · -- nonnegative: no sign
    have hshape : (fixedFormat q r).data = c :: t := by
      rw [hdata, if_neg hneg, hct]; rfl
    have : fixedFormat q r = ⟨c :: t⟩ := by
      cases hfx : fixedFormat q r
      simp only [hfx] at hshape
      rw [hshape]
    rw [this]
    rw [pyFloat?_digit c t hcdig (by rw [← hshape]; exact hnws)]
    rw [pyFloatUnsigned_digit c t hcdig false, ← hct, hudec]
    have hZ : ((a : ℤ)) = m := by
      rw [ha]; exact Int.natAbs_of_nonneg (not_lt.mp hneg)
    have hv : ((a : ℚ)) / 10 ^ r = (m : ℚ) / 10 ^ r := by
      have hq : ((a : ℚ)) = (m : ℚ) := by exact_mod_cast hZ
      rw [hq]
    rw [hround]
    show some (PyVal.fin ((a : ℚ) / 10 ^ r)) = some (PyVal.fin ((m : ℚ) / 10 ^ r))
    rw [hv]

theorem rhe_intCast (z : ℤ) : rhe (z : ℚ) = z := by
  unfold rhe
  rw [Int.floor_intCast]
  rw [if_pos]
  rw [sub_self]
  norm_num

/-- Rounding an already-rounded value changes nothing (`"{:.rf}"` applied
after `round(…, r)` re-rounds but the value is exact). -/
theorem pyRound_idem (v : ℚ) (r : ℕ) : pyRound (pyRound v r) r = pyRound v r := by
  unfold pyRound
  have h10 : ((10 : ℚ) ^ r) ≠ 0 := by positivity
  rw [div_mul_cancel₀ _ h10, rhe_intCast]

/-- The rounded numeral starts with '-' exactly when the rounded scaled
integer is negative. -/
theorem fixedFormat_head (q : ℚ) (r : ℕ) :
    (fixedFormat q r).data.head? = some '-' ↔ rhe (q * 10 ^ r) < 0 := by
  rw [fixedFormat_data]
  set m := rhe (q * 10 ^ r)
  set a := m.natAbs
  by_cases hneg : m < 0
  · rw [if_pos hneg]
    simp only [List.cons_append, List.head?_cons]
    exact ⟨fun _ => hneg, fun _ => trivial⟩
  · rw [if_neg hneg]
    rw [List.nil_append]
    constructor
    · intro h
      exfalso
      have hhead : ∃ c t, (if r = 0 then digs a
          else digs (a / 10 ^ r) ++ '.' :: padZeros r (digs (a % 10 ^ r))) = c :: t ∧
          c.isDigit = true := by
        by_cases hr : r = 0
        · rw [if_pos hr]
          obtain ⟨c, t, hct⟩ := List.exists_cons_of_ne_nil (digs_ne_nil a)
          exact ⟨c, t, hct, digs_all_digit a c (hct ▸ List.mem_cons_self c t)⟩
        · rw [if_neg hr]
          obtain ⟨c, t, hct⟩ := List.exists_cons_of_ne_nil (digs_ne_nil (a / 10 ^ r))
          refine ⟨c, t ++ '.' :: padZeros r (digs (a % 10 ^ r)), by rw [hct]; rfl, ?_⟩
          exact digs_all_digit _ c (hct ▸ List.mem_cons_self c t)
      obtain ⟨c, t, hct, hcdig⟩ := hhead
      rw [hct, List.head?_cons, Option.some.injEq] at h
      exact ne_of_digit_ne hcdig (by decide) h
    · intro h
      exact absurd h hneg

/-- The rounded numeral ends in a digit. -/
theorem fixedFormat_last (q : ℚ) (r : ℕ) :
    ∀ x, (fixedFormat q r).data.getLast? = some x → x.isDigit = true := by
  intro x hx
  rw [fixedFormat_data] at hx
  set m := rhe (q * 10 ^ r)
  set a := m.natAbs
  by_cases hr : r = 0
  · rw [if_pos hr] at hx
    rw [List.getLast?_append_of_ne_nil _ (digs_ne_nil a)] at hx
    exact digs_all_digit a x (List.mem_of_mem_getLast? hx)
  · rw [if_neg hr] at hx
    have hpadne : padZeros r (digs (a % 10 ^ r)) ≠ [] := by
      unfold padZeros
      intro hc
      rcases List.append_eq_nil.mp hc with ⟨_, h2⟩
      exact digs_ne_nil _ h2
    have hne : digs (a / 10 ^ r) ++ '.' :: padZeros r (digs (a % 10 ^ r)) ≠ [] := by
      intro hc
      rcases List.append_eq_nil.mp hc with ⟨_, h2⟩
      exact List.cons_ne_nil _ _ h2
    rw [List.getLast?_append_of_ne_nil _ hne] at hx
    rw [List.getLast?_append_of_ne_nil _ (List.cons_ne_nil '.' _)] at hx
    rw [show ('.' :: padZeros r (digs (a % 10 ^ r))) =
      ['.'] ++ padZeros r (digs (a % 10 ^ r)) from rfl] at hx
    rw [List.getLast?_append_of_ne_nil _ hpadne] at hx
    unfold padZeros at hx
    rw [List.getLast?_append_of_ne_nil _ (digs_ne_nil _)] at hx
    exact digs_all_digit _ x (List.mem_of_mem_getLast? hx)

theorem contains_false_of (l : List Char) (c : Char) (h : ∀ x ∈ l, x ≠ c) :
    l.contains c = false := by
  rw [Bool.eq_false_iff]
  intro hc
  exact h c (List.elem_iff.mp hc) rfl

theorem decide_ne_dot_of_digit (c : Char) (hc : c.isDigit = true) :
    (decide (c ≠ '.')) = true := by
  simp only [decide_eq_true_iff]
  intro h2
  subst h2
  exact Bool.noConfusion hc

/-- The rendered numeral counts exactly `rounding` decimal places under the
source's `len(number_str.split('.')[1])` rule. -/
theorem decimalPlacesOf_fixedFormat (q : ℚ) (r : ℕ) :
    decimalPlacesOf (fixedFormat q r).data = r := by
  rw [fixedFormat_data]
  set m := rhe (q * 10 ^ r)
  set a := m.natAbs
  by_cases hr : r = 0
  · subst hr
    rw [if_pos rfl]
    have hmem : ∀ x ∈ (if m < 0 then ['-'] else []) ++ digs a, x ≠ '.' := by
      intro x hx
      rcases List.mem_append.mp hx with h1 | h1
      · split at h1
        · rw [List.mem_singleton] at h1; subst h1; decide
        · exact absurd h1 (List.not_mem_nil x)
      · exact ne_of_digit_ne (digs_all_digit a x h1) (by decide)
    have hcf := contains_false_of _ '.' hmem
    unfold decimalPlacesOf
    rw [hcf]
    simp
  · simp only [if_neg hr]
    have hassoc : (if m < 0 then ['-'] else []) ++
        (digs (a / 10 ^ r) ++ '.' :: padZeros r (digs (a % 10 ^ r))) =
        ((if m < 0 then ['-'] else []) ++ digs (a / 10 ^ r)) ++
          '.' :: padZeros r (digs (a % 10 ^ r)) := by
      rw [List.append_assoc]
    rw [hassoc]
    have hhead : ∀ x ∈ (if m < 0 then ['-'] else []) ++ digs (a / 10 ^ r),
        (decide (x ≠ '.')) = true := by
      intro x hx
      rcases List.mem_append.mp hx with h1 | h1
      · split at h1
        · rw [List.mem_singleton] at h1; subst h1; decide
        · exact absurd h1 (List.not_mem_nil x)
      · exact decide_ne_dot_of_digit x (digs_all_digit _ x h1)
    have hpadd : ∀ x ∈ padZeros r (digs (a % 10 ^ r)), (decide (x ≠ '.')) = true :=
      fun x hx => decide_ne_dot_of_digit x (padZeros_all_digit _ _ (digs_all_digit _) x hx)
    unfold decimalPlacesOf
    rw [if_pos]
    · rw [dropWhile_append_stop _ _ '.' _ hhead (by decide)]
      rw [List.drop_one, List.tail_cons]
      rw [takeWhile_all _ _ hpadd]
      exact padZeros_length r _ (digs_len _ r (by omega) (Nat.mod_lt a (by positivity)))
    · exact List.elem_iff.mpr (List.mem_append.mpr (Or.inr (List.mem_cons_self '.' _)))

theorem pyRound_neg_iff (v : ℚ) (r : ℕ) :
    pyRound v r < 0 ↔ rhe (v * 10 ^ r) < 0 := by
  unfold pyRound
  have hpos : (0 : ℚ) < 10 ^ r := by positivity
  rw [div_neg_iff]
  constructor
  · rintro (⟨_, hb⟩ | ⟨ha, _⟩)
    · linarith
    · exact_mod_cast ha
  · intro h
    exact Or.inr ⟨by exact_mod_cast h, hpos⟩

/-! ## Claim C5: the `format_number` pipeline -/

/-- Claim C5: `format_number` multiplies by the multiplier, rounds to
`rounding` decimal places (round-half-to-even in the exact model), renders
the numeral with exactly `rounding` digits after the decimal point
(zero-padded), and concatenates prefix ++ numeral ++ suffix; a negative
rounded result carries its leading '-' on the numeral, after the prefix:
prefix "$", number -5, rounding 2 renders "$-5.00". -/
theorem c5_format_number :
    (∀ (n : ℚ) (I : FormattingInstructions),
      format_number n I = I.pfx ++ numeralOf n I ++ I.sfx ∧
      pyFloat? (numeralOf n I) =
        some (.fin (pyRound (n * I.multiplier) I.rounding)) ∧
      decimalPlacesOf (numeralOf n I).data = I.rounding ∧
      ((numeralOf n I).data.head? = some '-' ↔
        pyRound (n * I.multiplier) I.rounding < 0)) ∧
    format_number (-5) ⟨"$", "", 2, 1⟩ = "$-5.00" := by
  refine ⟨fun n I => ⟨rfl, ?_, ?_, ?_⟩, by decide⟩
  · unfold numeralOf
    rw [pyFloat?_fixedFormat, pyRound_idem]
  · exact decimalPlacesOf_fixedFormat _ _
  · unfold numeralOf
    rw [fixedFormat_head]
    have h10 : ((10 : ℚ) ^ I.rounding) ≠ 0 := by positivity
    rw [show pyRound (n * I.multiplier) I.rounding * 10 ^ I.rounding =
        ((rhe (n * I.multiplier * 10 ^ I.rounding) : ℚ)) from by
      unfold pyRound
      rw [div_mul_cancel₀ _ h10]]
    rw [rhe_intCast]
    exact (pyRound_neg_iff _ _).symm

theorem prefStop_false_of {c : Char} (h1 : c.isDigit = false) (h2 : c ≠ '.')
    (h3 : c ≠ '-') : prefStop c = false := by
  simp [prefStop, h1, h2, h3]

theorem sufStop_false_of {c : Char} (h1 : c.isDigit = false) (h2 : c ≠ '.') :
    sufStop c = false := by
  simp [sufStop, h1, h2]

theorem sufStop_digit {c : Char} (h : c.isDigit = true) : sufStop c = true := by
  simp [sufStop, h]

theorem fixedFormat_body_cons (a r : ℕ) :
    ∃ c t, (if r = 0 then digs a
      else digs (a / 10 ^ r) ++ '.' :: padZeros r (digs (a % 10 ^ r))) = c :: t ∧
      c.isDigit = true := by
  by_cases hr : r = 0
  · rw [if_pos hr]
    obtain ⟨c, t, hct⟩ := List.exists_cons_of_ne_nil (digs_ne_nil a)
    exact ⟨c, t, hct, digs_all_digit a c (hct ▸ List.mem_cons_self c t)⟩
  · rw [if_neg hr]
    obtain ⟨c, t, hct⟩ := List.exists_cons_of_ne_nil (digs_ne_nil (a / 10 ^ r))
    refine ⟨c, t ++ '.' :: padZeros r (digs (a % 10 ^ r)), by rw [hct]; rfl, ?_⟩
    exact digs_all_digit _ c (hct ▸ List.mem_cons_self c t)

/-- The rendered numeral is nonempty and starts with a prefix-scan stopper
('-' or a digit). -/
theorem fixedFormat_cons (q : ℚ) (r : ℕ) :
    ∃ c t, (fixedFormat q r).data = c :: t ∧ prefStop c = true := by
  rw [fixedFormat_data]
  set m := rhe (q * 10 ^ r)
  set a := m.natAbs
  obtain ⟨c, t, hct, hcd⟩ := fixedFormat_body_cons a r
  by_cases hneg : m < 0
  · rw [if_pos hneg, hct]
    exact ⟨'-', c :: t, rfl, by decide⟩
  · rw [if_neg hneg, List.nil_append, hct]
    exact ⟨c, t, rfl, by simp [prefStop, hcd]⟩

theorem fixedFormat_ne_nil (q : ℚ) (r : ℕ) : (fixedFormat q r).data ≠ [] := by
  obtain ⟨c, t, hct, _⟩ := fixedFormat_cons q r
  rw [hct]
  exact List.cons_ne_nil c t

/-- Round trip of `parse_answer` on a string assembled from a benign
prefix, a rendered numeral, and a benign suffix. -/
theorem parse_answer_decomp (pfxL sfxL : List Char) (q : ℚ) (r : ℕ)
    (hp : ∀ c ∈ pfxL, c.isDigit = false ∧ c ≠ '.' ∧ c ≠ '-' ∧ c.isWhitespace = false)
    (hs : ∀ c ∈ sfxL, c.isDigit = false ∧ c ≠ '.' ∧ c.isWhitespace = false) :
    parse_answer ⟨pfxL ++ (fixedFormat q r).data ++ sfxL⟩ =
      .ok ⟨⟨pfxL ++ (fixedFormat q r).data ++ sfxL⟩, pyRound q r, ⟨pfxL⟩, ⟨sfxL⟩, r⟩ := by
  obtain ⟨h0, nt, hND, hstop0⟩ := fixedFormat_cons q r
  have hNDne : (fixedFormat q r).data ≠ [] := fixedFormat_ne_nil q r
  have hNDws := fixedFormat_not_ws q r
  set ND := (fixedFormat q r).data with hNDdef
  set L := pfxL ++ ND ++ sfxL with hL
  -- strip is the identity
  have hstrip : pyStrip L = L := by
    apply pyStrip_eq_self
    · intro x hx
      rw [hL, List.append_assoc] at hx
      cases pfxL with
      | nil =>
          rw [List.nil_append] at hx
          rw [List.head?_append_of_ne_nil _ hNDne] at hx
          exact hNDws x (List.mem_of_mem_head? hx)
      | cons pc pt =>
          rw [List.head?_append_of_ne_nil _ (List.cons_ne_nil pc pt)] at hx
          rw [List.head?_cons, Option.some.injEq] at hx
          exact (hp x (hx ▸ List.mem_cons_self pc pt)).2.2.2
    · intro x hx
      rw [hL] at hx
      cases hsfx : sfxL with
      | nil =>
          rw [hsfx, List.append_nil] at hx
          rw [List.getLast?_append_of_ne_nil _ hNDne] at hx
          have := fixedFormat_last q r x hx
          exact isDigit_not_ws x this
      | cons sc st =>
          rw [hsfx, List.getLast?_append_of_ne_nil _ (List.cons_ne_nil sc st)] at hx
          have hmem : x ∈ sfxL := by
            rw [hsfx]
            exact List.mem_of_mem_getLast? hx
          exact (hs x hmem).2.2
  -- prefix extraction
  have hpstop : ∀ c ∈ pfxL, (!prefStop c) = true := by
    intro c hc
    obtain ⟨h1, h2, h3, _⟩ := hp c hc
    rw [prefStop_false_of h1 h2 h3]
    rfl
  have hLshape : L = pfxL ++ (h0 :: (nt ++ sfxL)) := by
    rw [hL, List.append_assoc, hND, List.cons_append]
  have htake : L.takeWhile (fun c => !prefStop c) = pfxL := by
    rw [hLshape]
    exact takeWhile_append_stop _ pfxL h0 _ hpstop (by rw [hstop0]; rfl)
  -- suffix extraction
  obtain ⟨d, nr, hrev⟩ := List.exists_cons_of_ne_nil
    (show ND.reverse ≠ [] from fun hc => hNDne (by
      have := congrArg List.reverse hc
      rwa [List.reverse_reverse] at this))
  have hdlast : ND.getLast? = some d := by
    rw [← List.head?_reverse, hrev, List.head?_cons]
  have hddig : d.isDigit = true := fixedFormat_last q r d hdlast
  have hsstop : ∀ c ∈ sfxL.reverse, (!sufStop c) = true := by
    intro c hc
    obtain ⟨h1, h2, _⟩ := hs c (List.mem_reverse.mp hc)
    rw [sufStop_false_of h1 h2]
    rfl
  have hrevshape : L.reverse = sfxL.reverse ++ (d :: (nr ++ pfxL.reverse)) := by
    rw [hL, List.reverse_append, List.reverse_append, hrev, List.cons_append]
  have hsfxtake : (L.reverse.takeWhile (fun c => !sufStop c)).reverse = sfxL := by
    rw [hrevshape,
      takeWhile_append_stop _ sfxL.reverse d _ hsstop (by rw [sufStop_digit hddig]; rfl),
      List.reverse_reverse]
  -- the middle segment
  have hlen : L.length - sfxL.length - pfxL.length = ND.length := by
    rw [hL, List.length_append, List.length_append]
    omega
  have hnum : (L.drop pfxL.length).take (L.length - sfxL.length - pfxL.length) = ND := by
    rw [hlen, hL, List.append_assoc, List.drop_left, List.take_left]
  -- assemble
  unfold parse_answer
  simp only [hstrip]
  rw [htake, hsfxtake, hnum,
    show decimalPlacesOf ND = r from decimalPlacesOf_fixedFormat q r,
    show (⟨ND⟩ : String) = fixedFormat q r from rfl,
    pyFloat?_fixedFormat q r]

/-! ## Claim C2: the format/parse round trip -/

/-- Claim C2 counterexample: with prefix "a1" (containing a digit) and
n = 5, format renders "a15.00" but parse decomposes it into prefix "a" and
number 15: neither the prefix nor (within 1e-9) the number of the claimed
round trip is recovered. -/
theorem c2_counterexample :
    format_number 5 ⟨"a1", "", 2, 1⟩ = "a15.00" ∧
    parse_answer (format_number 5 ⟨"a1", "", 2, 1⟩) =
      .ok ⟨"a15.00", 15, "a", "", 2⟩ ∧
    ("a" : String) ≠ "a1" ∧
    pyRound (5 * 1) 2 = 5 ∧
    ¬(|(15 : ℚ) - 5| < 1 / 10 ^ 9) := by
  refine ⟨by decide, by decide, by decide, by decide, ?_⟩
  intro h
  rw [show |(15 : ℚ) - 5| = 10 by norm_num] at h
  norm_num at h

/-- Claim C2 amended: the round trip holds whenever the prefix contains no
digit, '.', '-', or whitespace character and the suffix contains no digit,
'.', or whitespace character: parsing `format_number n I` recovers the
prefix, the suffix, `decimal_places = I.rounding`, and the number exactly
equal to `round(n * I.multiplier, I.rounding)` (hence within 1e-9). -/
theorem c2_amended (n : ℚ) (I : FormattingInstructions)
    (hp : ∀ c ∈ I.pfx.data, c.isDigit = false ∧ c ≠ '.' ∧ c ≠ '-' ∧ c.isWhitespace = false)
    (hs : ∀ c ∈ I.sfx.data, c.isDigit = false ∧ c ≠ '.' ∧ c.isWhitespace = false) :
    parse_answer (format_number n I) =
      .ok ⟨format_number n I, pyRound (n * I.multiplier) I.rounding,
           I.pfx, I.sfx, I.rounding⟩ := by
  have hdata : (format_number n I).data =
      I.pfx.data ++
        (fixedFormat (pyRound (n * I.multiplier) I.rounding) I.rounding).data ++
        I.sfx.data := by
    unfold format_number
    rw [String.data_append, String.data_append]
  have h := parse_answer_decomp I.pfx.data I.sfx.data
    (pyRound (n * I.multiplier) I.rounding) I.rounding hp hs
  rw [pyRound_idem] at h
  have hfmt : format_number n I =
      (⟨I.pfx.data ++
        (fixedFormat (pyRound (n * I.multiplier) I.rounding) I.rounding).data ++
        I.sfx.data⟩ : String) := by
    rw [← hdata]
  rw [hfmt]
  exact h

/-- Witness for C2 at n = 1/2, prefix "$", suffix "%", rounding 2,
multiplier 100 (the formatted string is "$50.00%"). -/
theorem c2_amended_witness :
    format_number (1 / 2) ⟨"$", "%", 2, 100⟩ = "$50.00%" ∧
    parse_answer (format_number (1 / 2) ⟨"$", "%", 2, 100⟩) =
      .ok ⟨format_number (1 / 2) ⟨"$", "%", 2, 100⟩,
        pyRound (1 / 2 * 100) 2, "$", "%", 2⟩ :=
  ⟨by decide, c2_amended (1 / 2) ⟨"$", "%", 2, 100⟩ (by decide) (by decide)⟩

/-! ## Claim C1: structure of the rewriting loop -/

theorem isChr_of_word (s : Seg) (h : wordSeg s = true) : isChrSeg s = true := by
  cases s with
  | chr c => rfl
  | val v => exact Bool.noConfusion h

theorem map_chr_segChars (w : List Seg) (h : ∀ s ∈ w, isChrSeg s = true) :
    (segChars w).map Seg.chr = w := by
  induction w with
  | nil => rfl
  | cons s t ih =>
      cases s with
      | chr c =>
          have h1 : segChars (Seg.chr c :: t) = c :: segChars t := rfl
          rw [h1, List.map_cons, ih (fun x hx => h x (List.mem_cons_of_mem _ hx))]
      | val v => exact Bool.noConfusion (h _ (List.mem_cons_self _ _))

theorem segChars_map_chr (l : List Char) : segChars (l.map Seg.chr) = l := by
  induction l with
  | nil => rfl
  | cons c t ih =>
      have h1 : segChars (Seg.chr c :: t.map Seg.chr) = c :: segChars (t.map Seg.chr) := rfl
      rw [List.map_cons, h1, ih]

/-- A segment list of the exact shape `word-run ( args )` rest matches at
its head. -/
theorem matchAt_of_shape (w a post : List Seg)
    (hw : ∀ s ∈ w, wordSeg s = true) (hwne : w ≠ [])
    (ha : ∀ s ∈ a, argSeg s = true) (hane : a ≠ []) :
    matchAt (w ++ .chr '(' :: (a ++ .chr ')' :: post)) = some (⟨segChars w⟩, a, post) := by
  unfold matchAt
  rw [takeWhile_append_stop _ w (.chr '(') _ hw (by decide),
      dropWhile_append_stop _ w (.chr '(') _ hw (by decide)]
  rw [if_neg hwne]
  show (let a' := (a ++ .chr ')' :: post).takeWhile argSeg
        let l3 := (a ++ .chr ')' :: post).dropWhile argSeg
        if a' = [] then none
        else
          match l3 with
          | .chr ')' :: post => some ((⟨segChars w⟩ : String), a', post)
          | _ => none) = some ((⟨segChars w⟩ : String), a, post)
  rw [takeWhile_append_stop _ a (.chr ')') post ha (by decide),
      dropWhile_append_stop _ a (.chr ')') post ha (by decide)]
  rw [if_neg hane]
  rfl

/-- Structural content of a successful anchored match. -/
theorem matchAt_spec (l : List Seg) (n : String) (a post : List Seg)
    (h : matchAt l = some (n, a, post)) :
    l = n.data.map Seg.chr ++ .chr '(' :: (a ++ .chr ')' :: post) ∧
    n.data ≠ [] ∧ a ≠ [] ∧
    (∀ s ∈ n.data.map Seg.chr, wordSeg s = true) ∧ (∀ s ∈ a, argSeg s = true) := by
  simp only [matchAt] at h
  split at h
  · exact Option.noConfusion h
  · rename_i hwne
    split at h
    · rename_i l2 heq1
      split at h
      · exact Option.noConfusion h
      · rename_i hane
        split at h
        · rename_i post' heq2
          simp only [Option.some.injEq, Prod.mk.injEq] at h
          obtain ⟨hn, hA, hP⟩ := h
          have hword : ∀ s ∈ l.takeWhile wordSeg, wordSeg s = true :=
            fun s hs => List.mem_takeWhile_imp hs
          have hnd : n.data = segChars (l.takeWhile wordSeg) := by rw [← hn]
          have hmap : n.data.map Seg.chr = l.takeWhile wordSeg := by
            rw [hnd]
            exact map_chr_segChars _ (fun s hs => isChr_of_word s (hword s hs))
          refine ⟨?_, ?_, ?_, ?_, ?_⟩
          · rw [hmap, ← hA, ← hP, ← heq2, List.takeWhile_append_dropWhile, ← heq1,
              List.takeWhile_append_dropWhile]
          · rw [hnd]
            intro hc
            apply hwne
            cases hl : l.takeWhile wordSeg with
            | nil => rfl
            | cons x t =>
                exfalso
                rw [hl] at hc
                have hx : isChrSeg x = true :=
                  isChr_of_word x (hword x (hl ▸ List.mem_cons_self x t))
                cases x with
                | chr c => exact List.noConfusion (show (c :: segChars t : List Char) = [] from hc)
                | val v => exact Bool.noConfusion hx
          · rw [← hA]; exact hane
          · rw [hmap]; exact hword
          · rw [← hA]; exact fun s hs => List.mem_takeWhile_imp hs
        · exact Option.noConfusion h
    · exact Option.noConfusion h

/-- Prepending a word segment to a list that matches anchored still matches
anchored (only the captured name grows). -/
theorem matchAt_cons_word (s : Seg) (rest : List Seg) (hw : wordSeg s = true)
    (n : String) (a post : List Seg) (h : matchAt rest = some (n, a, post)) :
    matchAt (s :: rest) = some (⟨segChars (s :: n.data.map Seg.chr)⟩, a, post) := by
  obtain ⟨hshape, hne, hane, hword, harg⟩ := matchAt_spec rest n a post h
  have h2 : s :: rest = (s :: n.data.map Seg.chr) ++ .chr '(' :: (a ++ .chr ')' :: post) := by
    rw [hshape]; rfl
  rw [h2]
  exact matchAt_of_shape _ _ _
    (by intro x hx
        rcases List.mem_cons.mp hx with h1 | h1
        · subst h1; exact hw
        · exact hword x h1)
    (List.cons_ne_nil _ _) harg hane

/-- Structural content of `findMatch`: the input decomposes around the
match, and the segment before the match (if any) is not a word segment. -/
theorem findMatch_spec (segs : List Seg) : ∀ (pre : List Seg) (n : String) (args post : List Seg),
    findMatch segs = some (pre, n, args, post) →
    segs = pre ++ (n.data.map Seg.chr ++ .chr '(' :: (args ++ .chr ')' :: post)) ∧
    n.data ≠ [] ∧ args ≠ [] ∧
    (∀ s ∈ n.data.map Seg.chr, wordSeg s = true) ∧ (∀ s ∈ args, argSeg s = true) ∧
    (∀ x, pre.getLast? = some x → wordSeg x = false) := by
  induction segs with
  | nil => intro pre n args post h; exact absurd h (by simp [findMatch])
  | cons s rest ih =>
      intro pre n args post h
      rw [findMatch] at h
      cases hm : matchAt (s :: rest) with
      | some res =>
          rw [hm] at h
          obtain ⟨n', a', post'⟩ := res
          simp only [Option.some.injEq, Prod.mk.injEq] at h
          obtain ⟨hpre, hn, ha, hp⟩ := h
          subst hn; subst ha; subst hp
          obtain ⟨hsh, h1, h2, h3, h4⟩ := matchAt_spec _ _ _ _ hm
          refine ⟨by rw [← hpre]; simpa using hsh, h1, h2, h3, h4, ?_⟩
          intro x hx
          rw [← hpre] at hx
          exact absurd hx (by simp)
      | none =>
          rw [hm] at h
          cases hf : findMatch rest with
          | none => rw [hf] at h; exact absurd h (by simp)
          | some r =>
              rw [hf] at h
              obtain ⟨p', n', a', q'⟩ := r
              simp only [Option.map_some', Option.some.injEq, Prod.mk.injEq] at h
              obtain ⟨hpre, hn, ha, hp⟩ := h
              subst hn; subst ha; subst hp
              obtain ⟨IH1, IH2, IH3, IH4, IH5, IH6⟩ := ih p' n' a' q' hf
              refine ⟨by rw [← hpre, IH1]; rfl, IH2, IH3, IH4, IH5, ?_⟩
              intro x hx
              rw [← hpre] at hx
              cases p' with
              | nil =>
                  simp only [List.getLast?_singleton, Option.some.injEq] at hx
                  subst hx
                  by_contra hws
                  rw [Bool.not_eq_false] at hws
                  have hmr : matchAt rest = some (n', a', q') := by
                    cases rest with
                    | nil => exact absurd hf (by simp [findMatch])
                    | cons y r2 =>
                        rw [findMatch] at hf
                        cases hm2 : matchAt (y :: r2) with
                        | some res2 =>
                            rw [hm2] at hf
                            obtain ⟨nn, aa, pp⟩ := res2
                            simp only [Option.some.injEq, Prod.mk.injEq] at hf
                            rw [hf.2.1, hf.2.2.1, hf.2.2.2]
                        | none =>
                            rw [hm2] at hf
                            cases hf2 : findMatch r2 with
                            | none => rw [hf2] at hf; exact absurd hf (by simp)
                            | some rr =>
                                rw [hf2] at hf
                                simp at hf
                  have hcw := matchAt_cons_word s rest hws n' a' q' hmr
                  rw [hm] at hcw
                  exact Option.noConfusion hcw
              | cons z t =>
                  rw [show s :: z :: t = [s] ++ (z :: t) from rfl,
                    List.getLast?_append_of_ne_nil [s] (List.cons_ne_nil _ _)] at hx
                  exact IH6 x hx

theorem pyAdd_ne_cplx (x y : PyVal) : pyAdd x y ≠ .cplx := by
  cases x <;> cases y <;> simp [pyAdd]

theorem pySub_ne_cplx (x y : PyVal) : pySub x y ≠ .cplx := pyAdd_ne_cplx x (pyNeg y)

theorem pyMul_ne_cplx (x y : PyVal) : pyMul x y ≠ .cplx := by
  cases x <;> cases y <;> simp only [pyMul] <;> (repeat' split) <;> simp

theorem pyDivNZ_ne_cplx (x y : PyVal) : pyDivNZ x y ≠ .cplx := by
  cases x <;> cases y <;> simp only [pyDivNZ] <;> (repeat' split) <;> simp

theorem pyGreaterOp_ne_cplx (x y : PyVal) : pyGreaterOp x y ≠ .cplx := by
  unfold pyGreaterOp
  (repeat' split) <;> simp

/-- Only `exp` (via complex pow fallback) ever produces a complex value. -/
theorem applyOp_cplx (name : String) (x y : PyVal)
    (h : applyOp name x y = some .cplx) : name = "exp" := by
  unfold applyOp at h
  split at h
  · exact absurd (Option.some.inj h) (pyAdd_ne_cplx x y)
  · split at h
    · exact absurd (Option.some.inj h) (pySub_ne_cplx x y)
    · split at h
      · exact absurd (Option.some.inj h) (pyMul_ne_cplx x y)
      · split at h
        · split at h
          · exact absurd (Option.some.inj h) (by simp)
          · exact absurd (Option.some.inj h) (pyDivNZ_ne_cplx x y)
        · split at h
          · assumption
          · split at h
            · exact absurd (Option.some.inj h) (pyGreaterOp_ne_cplx x y)
            · exact Option.noConfusion h

/-- Each rewriting step strictly shrinks the segment list (a removed match
spans ≥ 4 segments, ≥ 6 when the op is `exp`, while the inserted token has
1 segment, 4 for the complex placeholder), so `length + 1` fuel never runs
out. -/
theorem loopE_fuel : ∀ (fuel : ℕ) (segs : List Seg), segs.length < fuel →
    loopE fuel segs ≠ none := by
  intro fuel
  induction fuel with
  | zero => intro segs h; exact absurd h (Nat.not_lt_zero _)
  | succ n ih =>
      intro segs hlen
      rw [loopE]
      split
      · simp
      · rename_i pre name args post hfm
        obtain ⟨hsh, hn, ha, _, _, _⟩ := findMatch_spec segs pre name args post hfm
        have hns : 1 ≤ name.data.length := List.length_pos.mpr hn
        have has : 1 ≤ args.length := List.length_pos.mpr ha
        have hseg := congrArg List.length hsh
        simp only [List.length_append, List.length_cons, List.length_map] at hseg
        split
        · split
          · simp
          · rename_i x y hmm
            split
            · simp
            · rename_i r hap
              by_cases hlp : hasLParen ((pre ++ if r = .cplx then cplxSegs else [.val r]) ++ post)
              · simp only [hlp, if_true]
                apply ih
                by_cases hc : r = .cplx
                · rw [hc] at hap
                  have hexp : name = "exp" := applyOp_cplx name x y hap
                  have hn3 : name.data.length = 3 := by rw [hexp]; rfl
                  rw [if_pos hc]
                  simp only [List.length_append, cplxSegs, List.length_cons, List.length_nil]
                  omega
                · rw [if_neg hc]
                  simp only [List.length_append, List.length_cons, List.length_nil]
                  omega
              · simp only [Bool.not_eq_true] at hlp
                simp only [hlp, Bool.false_eq_true, if_false]
                split <;> simp
          · simp
        · simp

theorem matchAt_nonword (s : Seg) (l : List Seg) (h : wordSeg s = false) :
    matchAt (s :: l) = none := by
  unfold matchAt
  rw [List.takeWhile_cons_of_neg (by rw [h]; exact Bool.false_ne_true)]
  rfl

/-- `matchAt` fails whenever the maximal word run is not followed by `(`. -/
theorem matchAt_fail_head (l : List Seg)
    (h : (l.dropWhile wordSeg).head? ≠ some (Seg.chr '(')) :
    matchAt l = none := by
  simp only [matchAt]
  split
  · rfl
  · split
    · rename_i l2 heq
      exact absurd (by rw [heq]; rfl) h
    · rfl

/-- `matchAt` fails when the argument scan hits `(` before any `)`. -/
theorem matchAt_fail_inner (W A Y : List Seg) (hW : ∀ x ∈ W, wordSeg x = true)
    (hA : ∀ x ∈ A, argSeg x = true) :
    matchAt (W ++ .chr '(' :: (A ++ .chr '(' :: Y)) = none := by
  cases W with
  | nil => exact matchAt_nonword _ _ (by decide)
  | cons w W' =>
      unfold matchAt
      rw [takeWhile_append_stop _ (w :: W') (.chr '(') _ hW (by decide),
          dropWhile_append_stop _ (w :: W') (.chr '(') _ hW (by decide)]
      rw [if_neg (List.cons_ne_nil w W')]
      show (let a := (A ++ .chr '(' :: Y).takeWhile argSeg
            let l3 := (A ++ .chr '(' :: Y).dropWhile argSeg
            if a = [] then none
            else
              match l3 with
              | .chr ')' :: post => some ((⟨segChars (w :: W')⟩ : String), a, post)
              | _ => none) = none
      rw [takeWhile_append_stop _ A (.chr '(') _ hA (by decide),
          dropWhile_append_stop _ A (.chr '(') _ hA (by decide)]
      cases A <;> rfl

theorem findMatch_cons_none (s : Seg) (l : List Seg) (h : matchAt (s :: l) = none) :
    findMatch (s :: l) = (findMatch l).map
      (fun r => (s :: r.1, r.2.1, r.2.2.1, r.2.2.2)) := by
  rw [findMatch, h]

/-- `findMatch` skips a region at none of whose positions the word scan is
followed by `(`. -/
theorem findMatch_skip_noparen (L : List Seg) : ∀ (l : List Seg),
    (∀ i, i < L.length → ((L.drop i ++ l).dropWhile wordSeg).head? ≠ some (Seg.chr '(')) →
    findMatch (L ++ l) = (findMatch l).map (fun r => (L ++ r.1, r.2)) := by
  induction L with
  | nil =>
      intro l _
      rw [List.nil_append]
      cases findMatch l <;> simp
  | cons x t ih =>
      intro l h
      have h0 := h 0 (by simp)
      rw [List.drop_zero] at h0
      have hfail : matchAt (x :: (t ++ l)) = none := by
        apply matchAt_fail_head
        rw [← List.cons_append]
        exact h0
      rw [List.cons_append, findMatch_cons_none x (t ++ l) hfail]
      rw [ih l (fun i hi => by
        have hh := h (i + 1) (by simp only [List.length_cons]; omega)
        rw [List.drop_succ_cons] at hh
        exact hh)]
      cases findMatch l <;> simp

/-- `findMatch` skips a word run and its `(` when the argument scan behind
that `(` hits another `(`. -/
theorem findMatch_skip_word_lparen (W : List Seg) : ∀ (M A Y : List Seg),
    M = A ++ .chr '(' :: Y →
    (∀ x ∈ W, wordSeg x = true) → (∀ x ∈ A, argSeg x = true) →
    findMatch (W ++ .chr '(' :: M) =
      (findMatch M).map (fun r => ((W ++ [.chr '(']) ++ r.1, r.2)) := by
  induction W with
  | nil =>
      intro M A Y hM hW hA
      have hfail : matchAt (.chr '(' :: M) = none := matchAt_nonword _ _ (by decide)
      rw [List.nil_append, findMatch_cons_none _ _ hfail]
      cases findMatch M <;> simp
  | cons w W' ih =>
      intro M A Y hM hW hA
      have hfail : matchAt ((w :: W') ++ .chr '(' :: M) = none := by
        rw [hM]
        exact matchAt_fail_inner (w :: W') A Y hW hA
      rw [List.cons_append] at hfail
      rw [List.cons_append, findMatch_cons_none _ _ hfail,
          ih M A Y hM (fun x hx => hW x (List.mem_cons_of_mem _ hx)) hA]
      cases findMatch M <;> simp

/-- The word scan over a region that contains a stopper and no `(` cannot
end at a `(`. -/
theorem dropWhile_head_stop (L l : List Seg) (hall : ∀ x ∈ L, x ≠ Seg.chr '(')
    (hstop : ∃ x ∈ L, wordSeg x = false) :
    ((L ++ l).dropWhile wordSeg).head? ≠ some (Seg.chr '(') := by
  induction L with
  | nil => obtain ⟨x, hx, _⟩ := hstop; exact absurd hx (List.not_mem_nil x)
  | cons y t ih =>
      rw [List.cons_append]
      by_cases hy : wordSeg y = true
      · rw [List.dropWhile_cons_of_pos hy]
        apply ih (fun x hx => hall x (List.mem_cons_of_mem _ hx))
        obtain ⟨x, hx, hxw⟩ := hstop
        rcases List.mem_cons.mp hx with h1 | h1
        · rw [h1] at hxw; exact absurd hy (by simp [hxw])
        · exact ⟨x, h1, hxw⟩
      · rw [List.dropWhile_cons_of_neg hy]
        simp only [List.head?_cons, Option.some.injEq]
        exact fun hc => hall y (List.mem_cons_self _ _) (Option.some.inj hc)

theorem argSeg_chr (c : Char) (h1 : c ≠ '(') (h2 : c ≠ ')') : argSeg (.chr c) = true := by
  rw [argSeg.eq_def]
  split
  · rename_i heq; exact absurd (Seg.chr.inj heq) h1
  · rename_i heq; exact absurd (Seg.chr.inj heq) h2
  · rfl

theorem numChar_ne (c : Char) (h : numChar c = true) :
    c ≠ '(' ∧ c ≠ ')' ∧ c ≠ ',' ∧ c ≠ ' ' := by
  refine ⟨?_, ?_, ?_, ?_⟩ <;> (intro hc; subst hc; exact absurd h (by decide))

theorem pyWordChar_ne (c : Char) (h : pyWordChar c = true) :
    c ≠ '(' ∧ c ≠ ')' ∧ c ≠ ',' ∧ c ≠ ' ' := by
  refine ⟨?_, ?_, ?_, ?_⟩ <;> (intro hc; subst hc; exact absurd h (by decide))

theorem argSeg_of_word (x : Seg) (h : wordSeg x = true) : argSeg x = true := by
  cases x with
  | chr c =>
      obtain ⟨h1, h2, _⟩ := pyWordChar_ne c h
      exact argSeg_chr c h1 h2
  | val v => exact Bool.noConfusion h

theorem redex?_call_ne_none (op : String) (a b : PExpr) :
    redex? (.call op a b) ≠ none := by
  cases h : redex? a <;> cases h2 : redex? b <;> simp [redex?, h, h2]

/-- Elements of a rendered leaf: argument-region segments that are neither
`(` nor `,`. -/
theorem renderP_leaf_elems (c : PExpr) (hr : redex? c = none) (hwf : wfB c = true) :
    ∀ x ∈ renderP c, argSeg x = true ∧ x ≠ Seg.chr ',' ∧ x ≠ Seg.chr '(' := by
  cases c with
  | lit s =>
      intro x hx
      simp only [renderP, strSegs] at hx
      obtain ⟨ch, hch, rfl⟩ := List.mem_map.mp hx
      have hnum : numChar ch = true := by
        simp only [wfB, Bool.and_eq_true, List.all_eq_true] at hwf
        exact hwf.2 ch hch
      obtain ⟨h1, h2, h3, _⟩ := numChar_ne ch hnum
      exact ⟨argSeg_chr ch h1 h2,
        fun hc => h3 (Seg.chr.inj hc), fun hc => h1 (Seg.chr.inj hc)⟩
  | pval v =>
      intro x hx
      simp only [renderP, List.mem_singleton] at hx
      subst hx
      exact ⟨rfl, fun hc => Seg.noConfusion hc, fun hc => Seg.noConfusion hc⟩
  | call op a b => exact absurd hr (redex?_call_ne_none op a b)

theorem redex?_none_cc (c : PExpr) (h : redex? c = none) : callCount c = 0 := by
  cases c with
  | lit s => rfl
  | pval v => rfl
  | call op a b => exact absurd h (redex?_call_ne_none op a b)

theorem wfB_call (op : String) (a b : PExpr) (h : wfB (.call op a b) = true) :
    op.data ≠ [] ∧ (∀ c ∈ op.data, pyWordChar c = true) ∧ wfB a = true ∧ wfB b = true := by
  simp only [wfB, Bool.and_eq_true, List.all_eq_true, Bool.not_eq_true'] at h
  obtain ⟨⟨⟨h1, h2⟩, h3⟩, h4⟩ := h
  refine ⟨?_, h2, h3, h4⟩
  intro hc
  rw [hc] at h1
  exact absurd h1 (by decide)

theorem evalAst_call_congr (op : String) (a a' b b' : PExpr)
    (ha : evalAst a' = evalAst a) (hb : evalAst b' = evalAst b) :
    evalAst (.call op a' b') = evalAst (.call op a b) := by
  simp only [evalAst, ha, hb]

theorem wfB_repl (r : PyVal) : ∀ (u : PExpr), wfB u = true → wfB (repl r u) = true := by
  intro u
  induction u with
  | lit s => intro h; exact h
  | pval v => intro h; exact h
  | call op a b iha ihb =>
      intro h
      rw [repl]
      split
      · simp only [wfB, Bool.and_eq_true] at h ⊢
        exact ⟨⟨⟨h.1.1.1, h.1.1.2⟩, iha h.1.2⟩, h.2⟩
      · split
        · simp only [wfB, Bool.and_eq_true] at h ⊢
          exact ⟨⟨⟨h.1.1.1, h.1.1.2⟩, h.1.2⟩, ihb h.2⟩
        · rfl

theorem callCount_repl (r : PyVal) : ∀ (u : PExpr) (op : String) (a b : PExpr),
    redex? u = some (op, a, b) → callCount (repl r u) + 1 = callCount u := by
  intro u
  induction u with
  | lit s => intro op a b hr; exact absurd hr (by simp [redex?])
  | pval v => intro op a b hr; exact absurd hr (by simp [redex?])
  | call op0 a0 b0 iha ihb =>
      intro op a b hr
      cases hra : redex? a0 with
      | some ra =>
          obtain ⟨opa, aa, ba⟩ := ra
          have hrec := iha opa aa ba hra
          rw [repl, if_pos (by rw [hra]; rfl)]
          simp only [callCount]
          omega
      | none =>
          cases hrb : redex? b0 with
          | some rb =>
              obtain ⟨opb, ab, bb⟩ := rb
              have hrec := ihb opb ab bb hrb
              rw [repl, if_neg (by rw [hra]; simp), if_pos (by rw [hrb]; rfl)]
              simp only [callCount]
              omega
          | none =>
              rw [repl, if_neg (by rw [hra]; simp), if_neg (by rw [hrb]; simp)]
              have ha0 : callCount a0 = 0 := redex?_none_cc a0 hra
              have hb0 : callCount b0 = 0 := redex?_none_cc b0 hrb
              simp only [callCount]
              omega

theorem callCount_le_render : ∀ (u : PExpr), callCount u ≤ (renderP u).length := by
  intro u
  induction u with
  | lit s => exact Nat.zero_le _
  | pval v => exact Nat.zero_le _
  | call op a b iha ihb =>
      simp only [callCount, renderP, strSegs, List.length_append, List.length_cons,
        List.length_map]
      omega

theorem hasLParen_call (op : String) (a b : PExpr) :
    hasLParen (renderP (.call op a b)) = true := by
  simp only [hasLParen, renderP, List.any_append, List.any_cons]
  simp

theorem segFloat?_chars (l : List Seg) (h : l.all isChrSeg = true) :
    segFloat? l = pyFloat? ⟨segChars l⟩ := by
  rw [segFloat?.eq_def]
  split
  · rename_i v
    exact absurd h (by
      rw [show (([Seg.val v] : List Seg).all isChrSeg) = false from rfl]
      exact Bool.false_ne_true)
  · rw [if_pos h]

theorem segFloat?_leaf (c : PExpr) (x : PyVal) (hr : redex? c = none) (hwf : wfB c = true)
    (h : evalAst c = some x) : segFloat? (renderP c) = some x := by
  cases c with
  | lit s =>
      rw [show renderP (.lit s) = s.data.map Seg.chr from rfl]
      rw [segFloat?_chars _ (by
        rw [List.all_eq_true]
        intro x hx
        obtain ⟨c, _, rfl⟩ := List.mem_map.mp hx
        rfl)]
      rw [segChars_map_chr]
      exact h
  | pval v =>
      have hv : segFloat? (renderP (.pval v)) = some v := rfl
      rw [hv]
      exact h
  | call op a b => exact absurd hr (redex?_call_ne_none op a b)

theorem splitArgs_no_comma : ∀ (l : List Seg), (∀ x ∈ l, x ≠ Seg.chr ',') →
    splitArgs l = [l] := by
  intro l
  induction l with
  | nil => intro _; rfl
  | cons s t ih =>
      intro h
      rw [splitArgs.eq_def]
      split
      · rename_i heq
        exact List.noConfusion heq
      · rename_i rest heq
        have hs : s = Seg.chr ',' := (List.cons.inj heq).1
        exact absurd hs (h s (List.mem_cons_self _ _))
      · rename_i s' rest' heq
        obtain ⟨hs, ht⟩ := List.cons.inj heq
        subst hs
        rw [← ht, ih (fun x hx => h x (List.mem_cons_of_mem _ hx))]

theorem splitArgs_pair (A B : List Seg) (hA : ∀ x ∈ A, x ≠ Seg.chr ',')
    (hB : ∀ x ∈ B, x ≠ Seg.chr ',') :
    splitArgs (A ++ .chr ',' :: B) = [A, B] := by
  induction A with
  | nil =>
      rw [List.nil_append, splitArgs, splitArgs_no_comma B hB]
  | cons s t ih =>
      rw [List.cons_append, splitArgs.eq_def]
      split
      · rename_i heq
        exact List.noConfusion heq
      · rename_i rest heq
        have hs : s = Seg.chr ',' := (List.cons.inj heq).1
        exact absurd hs (hA s (List.mem_cons_self _ _))
      · rename_i s' rest' heq
        obtain ⟨hs, ht⟩ := List.cons.inj heq
        subst hs
        rw [← ht, ih (fun x hx => hA x (List.mem_cons_of_mem _ hx))]

/-- One loop step preserves the reference value: at the redex the operation
is known, both arguments evaluate, the result is a non-complex value, and
the tree with the redex replaced still evaluates to the same value. -/
theorem evalAst_step : ∀ (u : PExpr) (op : String) (a b : PExpr) (v : PyVal),
    redex? u = some (op, a, b) → evalAst u = some v →
    opNames.contains op = true ∧
    ∃ x y r, evalAst a = some x ∧ evalAst b = some y ∧
      applyOp op x y = some r ∧ r ≠ .cplx ∧ evalAst (repl r u) = some v := by
  intro u
  induction u with
  | lit s => intro op a b v hr _; exact absurd hr (by simp [redex?])
  | pval w => intro op a b v hr _; exact absurd hr (by simp [redex?])
  | call op0 a0 b0 iha ihb =>
      intro op a b v hr hev
      have hbind : (evalAst a0).bind (fun x => (evalAst b0).bind (fun y =>
          if opNames.contains op0 = true then
            match applyOp op0 x y with
            | some r => if r = .cplx then none else some r
            | none => none
          else none)) = some v := hev
      cases hx0 : evalAst a0 with
      | none => rw [hx0] at hbind; exact Option.noConfusion hbind
      | some x0 =>
          rw [hx0] at hbind
          simp only [Option.some_bind] at hbind
          cases hy0 : evalAst b0 with
          | none => rw [hy0] at hbind; exact Option.noConfusion hbind
          | some y0 =>
              rw [hy0] at hbind
              simp only [Option.some_bind] at hbind
              by_cases hop0 : opNames.contains op0 = true
              case neg => rw [if_neg hop0] at hbind; exact Option.noConfusion hbind
              rw [if_pos hop0] at hbind
              cases hap0 : applyOp op0 x0 y0 with
              | none => rw [hap0] at hbind; exact Option.noConfusion hbind
              | some r0 =>
                  rw [hap0] at hbind
                  have hbind2 : (if r0 = .cplx then none else some r0 : Option PyVal)
                      = some v := hbind
                  by_cases hc0 : r0 = .cplx
                  case pos => rw [if_pos hc0] at hbind2; exact Option.noConfusion hbind2
                  rw [if_neg hc0] at hbind2
                  have hv : r0 = v := Option.some.inj hbind2
                  cases hra : redex? a0 with
                  | some ra =>
                      rw [redex?, hra] at hr
                      have hra2 : ra = (op, a, b) := Option.some.inj hr
                      subst hra2
                      obtain ⟨hcon, x, y, r, hxa, hyb, hap, hrc, hrepl⟩ :=
                        iha op a b x0 hra hx0
                      refine ⟨hcon, x, y, r, hxa, hyb, hap, hrc, ?_⟩
                      have hre : repl r (.call op0 a0 b0) = .call op0 (repl r a0) b0 := by
                        rw [repl, if_pos (by rw [hra]; rfl)]
                      rw [hre, evalAst_call_congr op0 a0 (repl r a0) b0 b0
                        (hrepl.trans hx0.symm) rfl]
                      exact hev
                  | none =>
                      cases hrb : redex? b0 with
                      | some rb =>
                          rw [redex?, hra, hrb] at hr
                          have hrb2 : rb = (op, a, b) := Option.some.inj hr
                          subst hrb2
                          obtain ⟨hcon, x, y, r, hxa, hyb, hap, hrc, hrepl⟩ :=
                            ihb op a b y0 hrb hy0
                          refine ⟨hcon, x, y, r, hxa, hyb, hap, hrc, ?_⟩
                          have hre : repl r (.call op0 a0 b0)
                              = .call op0 a0 (repl r b0) := by
                            rw [repl, if_neg (by rw [hra]; simp),
                              if_pos (by rw [hrb]; rfl)]
                          rw [hre, evalAst_call_congr op0 a0 a0 b0 (repl r b0) rfl
                            (hrepl.trans hy0.symm)]
                          exact hev
                      | none =>
                          rw [redex?, hra, hrb] at hr
                          have h3 : (op0, a0, b0) = (op, a, b) := Option.some.inj hr
                          simp only [Prod.mk.injEq] at h3
                          obtain ⟨hOP, hA, hB⟩ := h3
                          refine ⟨by rw [← hOP]; exact hop0, x0, y0, r0,
                            by rw [← hA]; exact hx0, by rw [← hB]; exact hy0,
                            by rw [← hOP]; exact hap0, hc0, ?_⟩
                          have hre : repl r0 (.call op0 a0 b0) = .pval r0 := by
                            rw [repl, if_neg (by rw [hra]; simp),
                              if_neg (by rw [hrb]; simp)]
                          rw [hre]
                          rw [show evalAst (.pval r0) = some r0 from rfl, hv]

theorem strSegs_all_word (s : String) (h : ∀ c ∈ s.data, pyWordChar c = true) :
    ∀ x ∈ strSegs s, wordSeg x = true := by
  intro x hx
  simp only [strSegs] at hx
  obtain ⟨c, hc, rfl⟩ := List.mem_map.mp hx
  exact h c hc

theorem args_all_argSeg (a0 b0 : PExpr) (hra : redex? a0 = none) (hrb : redex? b0 = none)
    (hwa : wfB a0 = true) (hwb : wfB b0 = true) :
    ∀ x ∈ renderP a0 ++ .chr ',' :: renderP b0, argSeg x = true := by
  intro x hx
  rcases List.mem_append.mp hx with h1 | h1
  · exact (renderP_leaf_elems a0 hra hwa x h1).1
  · rcases List.mem_cons.mp h1 with h2 | h2
    · subst h2; rfl
    · exact (renderP_leaf_elems b0 hrb hwb x h2).1

theorem segChars_strSegs (s : String) : (⟨segChars (strSegs s)⟩ : String) = s := by
  rw [strSegs, segChars_map_chr]

theorem findMatch_of_matchAt (l : List Seg) (hl : l ≠ []) (n : String) (a p : List Seg)
    (h : matchAt l = some (n, a, p)) : findMatch l = some ([], n, a, p) := by
  cases l with
  | nil => exact absurd rfl hl
  | cons s t => rw [findMatch, h]

/-- The regex search over a rendered tree finds exactly the leftmost
innermost call, and replacing the match by a value token re-renders the
tree with that redex substituted. -/
theorem findMatch_render : ∀ (u : PExpr) (op : String) (a b : PExpr) (post : List Seg),
    redex? u = some (op, a, b) → wfB u = true → tailOk post →
    ∃ pre post',
      findMatch (renderP u ++ post)
        = some (pre, op, renderP a ++ .chr ',' :: renderP b, post') ∧
      ∀ r : PyVal, (pre ++ [Seg.val r]) ++ post' = renderP (repl r u) ++ post := by
  intro u
  induction u with
  | lit s => intro op a b post hr _ _; exact absurd hr (by simp [redex?])
  | pval w => intro op a b post hr _ _; exact absurd hr (by simp [redex?])
  | call op0 a0 b0 iha ihb =>
      intro op a b post hr hwf hpost
      obtain ⟨hne, hword, hwa, hwb⟩ := wfB_call op0 a0 b0 hwf
      have hW : ∀ x ∈ strSegs op0, wordSeg x = true := strSegs_all_word op0 hword
      cases hra : redex? a0 with
      | some ra =>
          -- the redex is inside a0, which is therefore a call
          rw [redex?, hra] at hr
          have hra2 : ra = (op, a, b) := Option.some.inj hr
          subst hra2
          cases a0 with
          | lit s => simp [redex?] at hra
          | pval v => simp [redex?] at hra
          | call opa a1 b1 =>
              obtain ⟨hnea, hworda, _, _⟩ := wfB_call opa a1 b1 hwa
              obtain ⟨pre1, post1, hfm1, hprop1⟩ :=
                iha op a b
                  (.chr ',' :: (renderP b0 ++ .chr ')' :: post)) hra hwa trivial
              have hshape : renderP (.call op0 (.call opa a1 b1) b0) ++ post
                  = strSegs op0 ++ .chr '(' :: (renderP (.call opa a1 b1)
                    ++ .chr ',' :: (renderP b0 ++ .chr ')' :: post)) := by
                simp [renderP, List.append_assoc]
              have hsplit : renderP (.call opa a1 b1)
                    ++ .chr ',' :: (renderP b0 ++ .chr ')' :: post)
                  = strSegs opa ++ .chr '(' :: ((renderP a1
                    ++ .chr ',' :: (renderP b1 ++ [.chr ')']))
                    ++ .chr ',' :: (renderP b0 ++ .chr ')' :: post)) := by
                simp [renderP, List.append_assoc]
              have hskip := findMatch_skip_word_lparen (strSegs op0) _ _ _ hsplit hW
                (fun x hx => argSeg_of_word x (strSegs_all_word opa hworda x hx))
              refine ⟨(strSegs op0 ++ [.chr '(']) ++ pre1, post1, ?_, ?_⟩
              · rw [hshape, hskip, hfm1]
                rfl
              · intro r
                have hre : repl r (.call op0 (.call opa a1 b1) b0)
                    = .call op0 (repl r (.call opa a1 b1)) b0 := by
                  rw [repl, if_pos (by rw [hra]; rfl)]
                rw [hre]
                have hsh2 : renderP (.call op0 (repl r (.call opa a1 b1)) b0) ++ post
                    = strSegs op0 ++ .chr '(' :: (renderP (repl r (.call opa a1 b1))
                      ++ .chr ',' :: (renderP b0 ++ .chr ')' :: post)) := by
                  simp [renderP, List.append_assoc]
                rw [hsh2, ← hprop1 r]
                simp [List.append_assoc]
      | none =>
          cases hrb : redex? b0 with
          | some rb =>
              rw [redex?, hra, hrb] at hr
              have hrb2 : rb = (op, a, b) := Option.some.inj hr
              subst hrb2
              cases b0 with
              | lit s => simp [redex?] at hrb
              | pval v => simp [redex?] at hrb
              | call opb b1 b2 =>
                  obtain ⟨hneb, hwordb, _, _⟩ := wfB_call opb b1 b2 hwb
                  obtain ⟨pre2, post2, hfm2, hprop2⟩ :=
                    ihb op a b (.chr ')' :: post) hrb hwb trivial
                  have hshape : renderP (.call op0 a0 (.call opb b1 b2)) ++ post
                      = strSegs op0 ++ .chr '(' :: (renderP a0
                        ++ .chr ',' :: (renderP (.call opb b1 b2)
                          ++ .chr ')' :: post)) := by
                    simp [renderP, List.append_assoc]
                  have hsplit : renderP a0 ++ .chr ',' :: (renderP (.call opb b1 b2)
                        ++ .chr ')' :: post)
                      = (renderP a0 ++ .chr ',' :: strSegs opb)
                        ++ .chr '(' :: ((renderP b1
                          ++ .chr ',' :: (renderP b2 ++ [.chr ')']))
                          ++ .chr ')' :: post) := by
                    simp [renderP, List.append_assoc]
                  have hAarg : ∀ x ∈ renderP a0 ++ .chr ',' :: strSegs opb,
                      argSeg x = true := by
                    intro x hx
                    rcases List.mem_append.mp hx with h1 | h1
                    · exact (renderP_leaf_elems a0 hra hwa x h1).1
                    · rcases List.mem_cons.mp h1 with h2 | h2
                      · subst h2; rfl
                      · exact argSeg_of_word x (strSegs_all_word opb hwordb x h2)
                  have hskip := findMatch_skip_word_lparen (strSegs op0) _ _ _
                    hsplit hW hAarg
                  have hsplitL : renderP a0 ++ .chr ',' :: (renderP (.call opb b1 b2)
                        ++ .chr ')' :: post)
                      = (renderP a0 ++ [.chr ','])
                        ++ (renderP (.call opb b1 b2) ++ .chr ')' :: post) := by
                    simp [List.append_assoc]
                  have hskip2 := findMatch_skip_noparen (renderP a0 ++ [.chr ','])
                    (renderP (.call opb b1 b2) ++ .chr ')' :: post)
                    (by
                      intro i hi
                      rw [List.drop_append_of_le_length (by
                        simp only [List.length_append, List.length_cons,
                          List.length_nil] at hi ⊢
                        omega)]
                      apply dropWhile_head_stop
                      · intro x hx
                        rcases List.mem_append.mp hx with h1 | h1
                        · exact (renderP_leaf_elems a0 hra hwa x
                            (List.mem_of_mem_drop h1)).2.2
                        · rw [List.mem_singleton] at h1
                          subst h1
                          exact fun hc => absurd (Seg.chr.inj hc) (by decide)
                      · refine ⟨Seg.chr ',', ?_, rfl⟩
                        apply List.mem_append_right
                        exact List.mem_singleton.mpr rfl)
                  refine ⟨(strSegs op0 ++ [.chr '('])
                    ++ ((renderP a0 ++ [.chr ',']) ++ pre2), post2, ?_, ?_⟩
                  · rw [hshape, hskip, hsplitL, hskip2, hfm2]
                    rfl
                  · intro r
                    have hre : repl r (.call op0 a0 (.call opb b1 b2))
                        = .call op0 a0 (repl r (.call opb b1 b2)) := by
                      rw [repl, if_neg (by rw [hra]; simp),
                        if_pos (by rw [hrb]; rfl)]
                    rw [hre]
                    have hsh2 : renderP (.call op0 a0 (repl r (.call opb b1 b2)))
                          ++ post
                        = strSegs op0 ++ .chr '(' :: (renderP a0
                          ++ .chr ',' :: (renderP (repl r (.call opb b1 b2))
                            ++ .chr ')' :: post)) := by
                      simp [renderP, List.append_assoc]
                    rw [hsh2, ← hprop2 r]
                    simp [List.append_assoc]
          | none =>
              -- the redex is the root call itself
              rw [redex?, hra, hrb] at hr
              have h3 : (op0, a0, b0) = (op, a, b) := Option.some.inj hr
              simp only [Prod.mk.injEq] at h3
              obtain ⟨hOP, hA, hB⟩ := h3
              have hshape : renderP (.call op0 a0 b0) ++ post
                  = strSegs op0 ++ .chr '(' :: ((renderP a0
                    ++ .chr ',' :: renderP b0) ++ .chr ')' :: post) := by
                simp [renderP, List.append_assoc]
              have hWne : strSegs op0 ≠ [] := by
                simp only [strSegs, ne_eq, List.map_eq_nil_iff]
                exact hne
              have hAne : renderP a0 ++ .chr ',' :: renderP b0 ≠ [] := by
                simp
              have hmatch : matchAt (renderP (.call op0 a0 b0) ++ post)
                  = some (op0, renderP a0 ++ .chr ',' :: renderP b0, post) := by
                rw [hshape]
                have hm := matchAt_of_shape (strSegs op0)
                  (renderP a0 ++ .chr ',' :: renderP b0) post hW hWne
                  (args_all_argSeg a0 b0 hra hrb hwa hwb) hAne
                rw [segChars_strSegs] at hm
                exact hm
              have hlne : renderP (.call op0 a0 b0) ++ post ≠ [] := by
                rw [hshape]
                cases hW0 : strSegs op0 with
                | nil => exact absurd hW0 hWne
                | cons c t => simp
              refine ⟨[], post, ?_, ?_⟩
              · rw [← hOP, ← hA, ← hB]
                exact findMatch_of_matchAt _ hlne _ _ _ hmatch
              · intro r
                have hre : repl r (.call op0 a0 b0) = .pval r := by
                  rw [repl, if_neg (by rw [hra]; simp), if_neg (by rw [hrb]; simp)]
                rw [hre]
                simp [renderP]

theorem redex?_leaves : ∀ (u : PExpr) (op : String) (a b : PExpr),
    redex? u = some (op, a, b) → redex? a = none ∧ redex? b = none := by
  intro u
  induction u with
  | lit s => intro op a b h; exact absurd h (by simp [redex?])
  | pval v => intro op a b h; exact absurd h (by simp [redex?])
  | call op0 a0 b0 iha ihb =>
      intro op a b h
      cases hra : redex? a0 with
      | some ra =>
          rw [redex?, hra] at h
          exact iha op a b (by rw [hra, Option.some.inj h])
      | none =>
          cases hrb : redex? b0 with
          | some rb =>
              rw [redex?, hra, hrb] at h
              exact ihb op a b (by rw [hrb, Option.some.inj h])
          | none =>
              rw [redex?, hra, hrb] at h
              have h3 : (op0, a0, b0) = (op, a, b) := Option.some.inj h
              simp only [Prod.mk.injEq] at h3
              exact ⟨h3.2.1 ▸ hra, h3.2.2 ▸ hrb⟩

theorem redex?_wf : ∀ (u : PExpr) (op : String) (a b : PExpr),
    redex? u = some (op, a, b) → wfB u = true → wfB a = true ∧ wfB b = true := by
  intro u
  induction u with
  | lit s => intro op a b h _; exact absurd h (by simp [redex?])
  | pval v => intro op a b h _; exact absurd h (by simp [redex?])
  | call op0 a0 b0 iha ihb =>
      intro op a b h hwf
      obtain ⟨_, _, hwa, hwb⟩ := wfB_call op0 a0 b0 hwf
      cases hra : redex? a0 with
      | some ra =>
          rw [redex?, hra] at h
          exact iha op a b (by rw [hra, Option.some.inj h]) hwa
      | none =>
          cases hrb : redex? b0 with
          | some rb =>
              rw [redex?, hra, hrb] at h
              exact ihb op a b (by rw [hrb, Option.some.inj h]) hwb
          | none =>
              rw [redex?, hra, hrb] at h
              have h3 : (op0, a0, b0) = (op, a, b) := Option.some.inj h
              simp only [Prod.mk.injEq] at h3
              exact ⟨h3.2.1 ▸ hwa, h3.2.2 ▸ hwb⟩

theorem repl_shape (r : PyVal) (u : PExpr) (op : String) (a b : PExpr)
    (h : redex? u = some (op, a, b)) :
    (∃ o2 a2 b2, repl r u = .call o2 a2 b2) ∨ repl r u = .pval r := by
  cases u with
  | lit s => exact absurd h (by simp [redex?])
  | pval w => exact absurd h (by simp [redex?])
  | call op0 a0 b0 =>
      rw [repl]
      split
      · exact Or.inl ⟨_, _, _, rfl⟩
      · split
        · exact Or.inl ⟨_, _, _, rfl⟩
        · exact Or.inr rfl

/-- Simulation: on the rendering of a tree with at least one call whose
reference evaluation succeeds, the rewriting loop returns exactly that
value. -/
theorem loop_sim : ∀ (fuel : ℕ) (u : PExpr) (v : PyVal), wfB u = true →
    evalAst u = some v → 1 ≤ callCount u → callCount u ≤ fuel →
    loopE fuel (renderP u) = some (.ok v) := by
  intro fuel
  induction fuel with
  | zero => intro u v _ _ h1 h2; omega
  | succ n ih =>
      intro u v hwf hev hcc1 hcc2
      cases hru : redex? u with
      | none =>
          rw [redex?_none_cc u hru] at hcc1
          omega
      | some t3 =>
          obtain ⟨op, a, b⟩ := t3
          obtain ⟨hcon, x, y, r, hxa, hyb, hap, hrc, hrepl⟩ :=
            evalAst_step u op a b v hru hev
          obtain ⟨pre, post', hfm, hprop⟩ := findMatch_render u op a b [] hru hwf trivial
          rw [List.append_nil] at hfm
          obtain ⟨hlra, hlrb⟩ := redex?_leaves u op a b hru
          obtain ⟨hwfa, hwfb⟩ := redex?_wf u op a b hru hwf
          have hsa : segFloat? (renderP a) = some x := segFloat?_leaf a x hlra hwfa hxa
          have hsb : segFloat? (renderP b) = some y := segFloat?_leaf b y hlrb hwfb hyb
          have hsplit : splitArgs (renderP a ++ .chr ',' :: renderP b)
              = [renderP a, renderP b] :=
            splitArgs_pair _ _ (fun z hz => (renderP_leaf_elems a hlra hwfa z hz).2.1)
              (fun z hz => (renderP_leaf_elems b hlrb hwfb z hz).2.1)
          have hmapm : (splitArgs (renderP a ++ .chr ',' :: renderP b)).mapM segFloat?
              = some [x, y] := by
            rw [hsplit, List.mapM_cons, List.mapM_cons, List.mapM_nil, hsa, hsb]
            rfl
          have hpr := hprop r
          rw [List.append_nil] at hpr
          rw [loopE, hfm]
          simp only [hcon, hmapm, hap, if_true, if_neg hrc]
          rw [hpr]
          rcases repl_shape r u op a b hru with ⟨o2, a2, b2, hrep⟩ | hrep
          · rw [hrep, if_pos (hasLParen_call o2 a2 b2), ← hrep]
            have hcr := callCount_repl r u op a b hru
            apply ih (repl r u) v (wfB_repl r u hwf) hrepl
            · rw [hrep]
              simp only [callCount]
              omega
            · omega
          · rw [hrep]
            rw [show renderP (.pval r) = [Seg.val r] from rfl]
            rw [if_neg (by simp [hasLParen])]
            have h5 : evalAst (.pval r) = some v := by rw [← hrep]; exact hrepl
            have hveq : r = v := Option.some.inj h5
            rw [show segFloat? [Seg.val r] = some r from rfl, hveq]

theorem mem_dropWhile_of {α : Type} (p : α → Bool) : ∀ (l : List α) (c : α),
    c ∈ l → p c = false → c ∈ l.dropWhile p := by
  intro l
  induction l with
  | nil => intro c hc _; exact absurd hc (List.not_mem_nil c)
  | cons x t ih =>
      intro c hc hp
      by_cases hx : p x = true
      · rw [List.dropWhile_cons_of_pos hx]
        rcases List.mem_cons.mp hc with h1 | h1
        · rw [h1] at hp; rw [hp] at hx; exact absurd hx (by decide)
        · exact ih c h1 hp
      · rw [List.dropWhile_cons_of_neg hx]
        exact hc

theorem mem_pyStrip (l : List Char) (c : Char) (hc : c ∈ l)
    (hw : c.isWhitespace = false) : c ∈ pyStrip l := by
  rw [pyStrip, List.mem_reverse]
  exact mem_dropWhile_of _ _ c
    (List.mem_reverse.mpr (mem_dropWhile_of _ _ c hc hw)) hw

theorem parseSpecial_chars (l : List Char) (w : PyVal) (h : parseSpecial l = some w) :
    ∀ c ∈ l, c ≠ '(' := by
  simp only [parseSpecial] at h
  split at h
  · rename_i hcond
    intro c hc hceq
    subst hceq
    have hmem : Char.toLower '(' ∈ l.map Char.toLower := List.mem_map_of_mem _ hc
    rcases hcond with h1 | h1 <;> rw [h1] at hmem <;> exact absurd hmem (by decide)
  · split at h
    · rename_i hcond
      intro c hc hceq
      subst hceq
      have hmem : Char.toLower '(' ∈ l.map Char.toLower := List.mem_map_of_mem _ hc
      rw [hcond] at hmem
      exact absurd hmem (by decide)
    · exact absurd h (by simp)

theorem isDigit_ne_lparen (c : Char) (h : c.isDigit = true) : c ≠ '(' := by
  intro hc
  subst hc
  exact absurd h (by decide)

theorem parseDigitRun_chars (l : List Char) (n : ℕ) (h : parseDigitRun l = some n) :
    ∀ c ∈ l, c ≠ '(' := by
  unfold parseDigitRun at h
  split at h
  · rename_i hcond
    exact fun c hc => isDigit_ne_lparen c (List.all_eq_true.mp hcond.2 c hc)
  · exact absurd h (by simp)

theorem parseSignedDigits_chars (l : List Char) (e : ℤ)
    (h : parseSignedDigits l = some e) : ∀ c ∈ l, c ≠ '(' := by
  rw [parseSignedDigits.eq_def] at h
  split at h
  · rename_i r
    intro c hc
    cases hd : parseDigitRun r with
    | none => rw [hd] at h; exact absurd h (by simp)
    | some n =>
        rcases List.mem_cons.mp hc with h1 | h1
        · subst h1; decide
        · exact parseDigitRun_chars r n hd c h1
  · rename_i r
    intro c hc
    cases hd : parseDigitRun r with
    | none => rw [hd] at h; exact absurd h (by simp)
    | some n =>
        rcases List.mem_cons.mp hc with h1 | h1
        · subst h1; decide
        · exact parseDigitRun_chars r n hd c h1
  · intro c hc
    cases hd : parseDigitRun l with
    | none => rw [hd] at h; exact absurd h (by simp)
    | some n => exact parseDigitRun_chars l n hd c hc

theorem parseExpPart_chars (l : List Char) (e : ℤ) (h : parseExpPart l = some e) :
    ∀ c ∈ l, c ≠ '(' := by
  rw [parseExpPart.eq_def] at h
  split at h
  · intro c hc
    exact absurd hc (List.not_mem_nil c)
  · rename_i r
    intro c hc
    rcases List.mem_cons.mp hc with h1 | h1
    · subst h1; decide
    · exact parseSignedDigits_chars r e h c h1
  · rename_i r
    intro c hc
    rcases List.mem_cons.mp hc with h1 | h1
    · subst h1; decide
    · exact parseSignedDigits_chars r e h c h1
  · exact absurd h (by simp)

theorem parseUDec_chars (l : List Char) (q : ℚ) (h : parseUDec l = some q) :
    ∀ c ∈ l, c ≠ '(' := by
  have hl : l.takeWhile Char.isDigit ++ l.dropWhile Char.isDigit = l :=
    List.takeWhile_append_dropWhile _ _
  simp only [parseUDec] at h
  split at h
  · rename_i r2 heq
    split at h
    · exact absurd h (by simp)
    · obtain ⟨e, he, _⟩ := Option.map_eq_some'.mp h
      intro c hc
      rcases List.mem_append.mp (by rw [hl]; exact hc :
          c ∈ l.takeWhile Char.isDigit ++ l.dropWhile Char.isDigit) with h1 | h1
      · exact isDigit_ne_lparen c (List.mem_takeWhile_imp h1)
      · rw [heq] at h1
        rcases List.mem_cons.mp h1 with h2 | h2
        · subst h2; decide
        · have hr2 : r2.takeWhile Char.isDigit ++ r2.dropWhile Char.isDigit = r2 :=
            List.takeWhile_append_dropWhile _ _
          rcases List.mem_append.mp (by rw [hr2]; exact h2 :
              c ∈ r2.takeWhile Char.isDigit ++ r2.dropWhile Char.isDigit) with h3 | h3
          · exact isDigit_ne_lparen c (List.mem_takeWhile_imp h3)
          · exact parseExpPart_chars _ e he c h3
  · split at h
    · exact absurd h (by simp)
    · obtain ⟨e, he, _⟩ := Option.map_eq_some'.mp h
      intro c hc
      rcases List.mem_append.mp (by rw [hl]; exact hc :
          c ∈ l.takeWhile Char.isDigit ++ l.dropWhile Char.isDigit) with h1 | h1
      · exact isDigit_ne_lparen c (List.mem_takeWhile_imp h1)
      · exact parseExpPart_chars _ e he c h1

theorem pyFloatUnsigned_chars (l : List Char) (b : Bool) (v : PyVal)
    (h : pyFloatUnsigned l b = some v) : ∀ c ∈ l, c ≠ '(' := by
  cases hps : parseSpecial l with
  | some w => exact parseSpecial_chars l w hps
  | none =>
      rw [pyFloatUnsigned, hps] at h
      obtain ⟨q, hq, _⟩ := Option.map_eq_some'.mp h
      exact parseUDec_chars l q hq

theorem pyFloat?_lparen (s : String) (v : PyVal) (h : pyFloat? s = some v) :
    '(' ∉ s.data := by
  intro hmem
  have hmem2 : '(' ∈ pyStrip s.data := mem_pyStrip _ _ hmem (by decide)
  rw [pyFloat?.eq_def] at h
  split at h
  · rename_i r heq
    rw [heq] at hmem2
    rcases List.mem_cons.mp hmem2 with h1 | h1
    · exact absurd h1 (by decide)
    · exact (pyFloatUnsigned_chars r false v h '(' h1) rfl
  · rename_i r heq
    rw [heq] at hmem2
    rcases List.mem_cons.mp hmem2 with h1 | h1
    · exact absurd h1 (by decide)
    · exact (pyFloatUnsigned_chars r true v h '(' h1) rfl
  · exact (pyFloatUnsigned_chars _ false v h '(' hmem2) rfl

theorem pyFloat?_none_of_lparen (s : String) (h : '(' ∈ s.data) : pyFloat? s = none := by
  cases hp : pyFloat? s with
  | none => rfl
  | some v => exact absurd h (pyFloat?_lparen s v hp)

theorem mem_segChars : ∀ (l : List Seg) (c : Char), c ∈ segChars l → Seg.chr c ∈ l := by
  intro l
  induction l with
  | nil => intro c hc; exact absurd hc (List.not_mem_nil c)
  | cons s t ih =>
      intro c hc
      cases s with
      | chr c' =>
          have h1 : segChars (Seg.chr c' :: t) = c' :: segChars t := rfl
          rw [h1] at hc
          rcases List.mem_cons.mp hc with h2 | h2
          · subst h2; exact List.mem_cons_self _ _
          · exact List.mem_cons_of_mem _ (ih c h2)
      | val v =>
          have h1 : segChars (Seg.val v :: t) = segChars t := rfl
          rw [h1] at hc
          exact List.mem_cons_of_mem _ (ih c hc)

theorem chr_mem_segChars : ∀ (l : List Seg) (c : Char), Seg.chr c ∈ l → c ∈ segChars l := by
  intro l
  induction l with
  | nil => intro c hc; exact absurd hc (List.not_mem_nil _)
  | cons s t ih =>
      intro c hc
      rcases List.mem_cons.mp hc with h1 | h1
      · rw [← h1]
        exact List.mem_cons_self c (segChars t)
      · cases s with
        | chr c' => exact List.mem_cons_of_mem c' (ih c h1)
        | val v => exact ih c h1

theorem renderP_no_space : ∀ (t : PExpr), wfB t = true →
    ∀ x ∈ renderP t, x ≠ Seg.chr ' ' := by
  intro t
  induction t with
  | lit s =>
      intro hwf x hx
      simp only [renderP, strSegs] at hx
      obtain ⟨c, hc, rfl⟩ := List.mem_map.mp hx
      simp only [wfB, Bool.and_eq_true, List.all_eq_true] at hwf
      obtain ⟨_, _, _, h4⟩ := numChar_ne c (hwf.2 c hc)
      exact fun hcc => h4 (Seg.chr.inj hcc)
  | pval v =>
      intro _ x hx
      simp only [renderP, List.mem_singleton] at hx
      subst hx
      exact fun hcc => Seg.noConfusion hcc
  | call op a b iha ihb =>
      intro hwf x hx
      obtain ⟨hne, hword, hwa, hwb⟩ := wfB_call op a b hwf
      simp only [renderP, List.mem_append, List.mem_cons, List.mem_singleton] at hx
      rcases hx with h1 | h1 | h1 | h1 | h1 | h1 | h1
      · simp only [strSegs] at h1
        obtain ⟨c, hc, rfl⟩ := List.mem_map.mp h1
        obtain ⟨_, _, _, h4⟩ := pyWordChar_ne c (hword c hc)
        exact fun hcc => h4 (Seg.chr.inj hcc)
      · subst h1; exact fun hcc => absurd (Seg.chr.inj hcc) (by decide)
      · exact iha hwa x h1
      · subst h1; exact fun hcc => absurd (Seg.chr.inj hcc) (by decide)
      · exact ihb hwb x h1
      · subst h1; exact fun hcc => absurd (Seg.chr.inj hcc) (by decide)
      · exact absurd h1 (List.not_mem_nil x)

theorem renderP_all_chr : ∀ (t : PExpr), noPval t = true →
    ∀ x ∈ renderP t, isChrSeg x = true := by
  intro t
  induction t with
  | lit s =>
      intro _ x hx
      simp only [renderP, strSegs] at hx
      obtain ⟨c, _, rfl⟩ := List.mem_map.mp hx
      rfl
  | pval v => intro h; exact Bool.noConfusion h
  | call op a b iha ihb =>
      intro hnp x hx
      simp only [noPval, Bool.and_eq_true] at hnp
      simp only [renderP, List.mem_append, List.mem_cons, List.mem_singleton] at hx
      rcases hx with h1 | h1 | h1 | h1 | h1 | h1 | h1
      · simp only [strSegs] at h1
        obtain ⟨c, _, rfl⟩ := List.mem_map.mp h1
        rfl
      · subst h1; rfl
      · exact iha hnp.1 x h1
      · subst h1; rfl
      · exact ihb hnp.2 x h1
      · subst h1; rfl
      · exact absurd h1 (List.not_mem_nil x)

theorem removeSpaces_render (t : PExpr) (hwf : wfB t = true) :
    removeSpaces (renderStr t) = renderStr t := by
  show (⟨(segChars (renderP t)).filter (fun c => c ≠ ' ')⟩ : String)
      = ⟨segChars (renderP t)⟩
  refine congrArg String.mk ?_
  apply List.filter_eq_self.mpr
  intro c hc
  have h1 : Seg.chr c ∈ renderP t := mem_segChars _ c hc
  have h2 : Seg.chr c ≠ Seg.chr ' ' := renderP_no_space t hwf _ h1
  exact decide_eq_true (fun hcc => h2 (congrArg Seg.chr hcc))

theorem strSegs_renderStr (t : PExpr) (hnp : noPval t = true) :
    strSegs (renderStr t) = renderP t := by
  show (segChars (renderP t)).map Seg.chr = renderP t
  exact map_chr_segChars _ (renderP_all_chr t hnp)

/-- Top-level simulation: `evaluate` on the rendering of a tree whose
reference evaluation succeeds returns exactly that value. -/
theorem evaluate_sim (t : PExpr) (v : PyVal) (hwf : wfB t = true)
    (hnp : noPval t = true) (hev : evalAst t = some v) :
    evaluate (renderStr t) = .ok v := by
  have hrs := removeSpaces_render t hwf
  cases t with
  | lit s =>
      have hs : renderStr (.lit s) = s := segChars_strSegs s
      rw [hs] at hrs ⊢
      have hf : pyFloat? s = some v := hev
      simp only [evaluate, hrs, hf]
  | pval w => exact Bool.noConfusion hnp
  | call op a b =>
      have hmem : '(' ∈ (renderStr (.call op a b)).data := by
        apply chr_mem_segChars
        exact List.mem_append_right _ (List.mem_cons_self _ _)
      have hpf : pyFloat? (renderStr (.call op a b)) = none :=
        pyFloat?_none_of_lparen _ hmem
      have hcc1 : 1 ≤ callCount (.call op a b) := by simp only [callCount]; omega
      have hcc2 := callCount_le_render (.call op a b)
      have hloop := loop_sim ((renderP (.call op a b)).length + 1)
        (.call op a b) v hwf hev hcc1 (by omega)
      simp only [evaluate, hrs, hpf]
      rw [strSegs_renderStr _ hnp, hloop]
      rfl

def deepAdd : ℕ → PExpr
  | 0 => .lit "1"
  | n + 1 => .call "add" (.lit "1") (deepAdd n)

/-- **C1** (counterexample): `exp(0,-1)` is a well-formed expression built
from the six operations with numeral leaves, yet `evaluate` raises the
descriptive "Error evaluating …" ValueError (Python `0.0 ** -1.0` raises
ZeroDivisionError inside the operation), so a well-formed expression need
not evaluate to a float without error. -/
theorem c1_counterexample :
    wfB (.call "exp" (.lit "0") (.lit "-1")) = true ∧
    renderStr (.call "exp" (.lit "0") (.lit "-1")) = "exp(0,-1)" ∧
    evaluate "exp(0,-1)" = .error (.evalError "exp") := by
  refine ⟨by decide, by decide, by decide⟩

/-- **C1** (amended): `evaluate` always terminates — one rewriting step
strictly shrinks the expression, so `length + 1` loop iterations suffice —
and on every well-formed expression (nested to arbitrary depth) whose
reference post-order evaluation succeeds (no `exp` corner case raising
ZeroDivisionError or falling back to complex pow), it returns exactly the
reference value without raising. -/
theorem c1_amended :
    (∀ segs : List Seg, loopE (segs.length + 1) segs ≠ none) ∧
    (∀ (t : PExpr) (v : PyVal), wfB t = true → noPval t = true →
      evalAst t = some v → evaluate (renderStr t) = .ok v) :=
  ⟨fun segs => loopE_fuel (segs.length + 1) segs (Nat.lt_succ_self _),
   fun t v hwf hnp hev => evaluate_sim t v hwf hnp hev⟩

/-- **C1** witness: an 11-level nested `add` tower evaluates to 12.0. -/
theorem c1_amended_witness :
    wfB (deepAdd 11) = true ∧ noPval (deepAdd 11) = true ∧
    evalAst (deepAdd 11) = some (.fin 12) ∧
    evaluate (renderStr (deepAdd 11)) = .ok (.fin 12) ∧
    loopE ((strSegs "add(1,1)").length + 1) (strSegs "add(1,1)") ≠ none :=
  ⟨by decide, by decide, by decide,
   c1_amended.2 (deepAdd 11) (.fin 12) (by decide) (by decide) (by decide),
   c1_amended.1 (strSegs "add(1,1)")⟩
